import Mathlib

/-!
Verification of the nitro repository's core claims: the jemalloc façade's
bin-fragmentation arithmetic (`mm/malloc.go`), the skiplist access barrier
(`skiplist/access_barrier.go`) and the lock-free skiplist
(`skiplist/skiplist.go`), shallowly embedded in Lean.  Go machine integers
are modelled as `Nat`/`Int` with explicit wrap-around where Go would wrap.
-/

namespace Nitro

/-! ## Machine-integer helpers -/

/-- Modulus of Go's `uint64` arithmetic. -/
def W64 : Nat := 2 ^ 64

/-- Go `uint64` multiplication: product modulo `2^64`. -/
def umul64 (a b : Nat) : Nat := (a * b) % W64

/-- Go `uint64` subtraction `a - b` (wrap-around), for `a b < 2^64`. -/
def usub64 (a b : Nat) : Nat := (a + W64 - b) % W64

/-- Wrap an integer into Go's `int32` range `[-2^31, 2^31)`. -/
def i32 (z : Int) : Int := (z + 2 ^ 31) % 2 ^ 32 - 2 ^ 31

/-- Wrap an integer into Go's `int64` range `[-2^63, 2^63)`. -/
def i64 (z : Int) : Int := (z + 2 ^ 63) % 2 ^ 64 - 2 ^ 63

/-- Go's conversion `int64(u)` of a `uint64` value `u < 2^64`. -/
def toInt64 (u : Nat) : Int := if u < 2 ^ 63 then (u : Int) else (u : Int) - 2 ^ 64

/-! ## Allocator façade (`mm/malloc.go`) -/

/-- `computeBinFrag` from `mm/malloc.go`:
`if curslabs <= 0 || nregs <= 0 { return 0 }` and otherwise
`100 - ((100*curregs) / (curslabs*nregs))`, all in `uint64` arithmetic
(on `uint64`, `x <= 0` means `x == 0`; the subtraction wraps). -/
def computeBinFrag (curregs curslabs nregs : Nat) : Nat :=
  if curslabs = 0 || nregs = 0 then 0
  else usub64 100 (umul64 100 curregs / umul64 curslabs nregs)

/-- `computeBinResident` from `mm/malloc.go`: `curslabs * nregs * size`
in `uint64` arithmetic. -/
def computeBinResident (curslabs nregs size : Nat) : Nat :=
  umul64 (umul64 curslabs nregs) size

/-! ## Access barrier (`skiplist/access_barrier.go`) -/

/-- `barrierFlushOffset = math.MaxInt32 / 2` (Go constant integer division,
`math.MaxInt32 = 2^31 - 1`). -/
def barrierFlushOffset : Int := (2 ^ 31 - 1) / 2

/-- A `BarrierSession`: `liveCount` and `closed` are Go `int32` values,
`seqno` is a `uint64`, `objectRef` an opaque pointer modelled as a number. -/
structure BarrierSession where
  liveCount : Int
  closed : Int
  seqno : Nat
  objectRef : Nat
  deriving Repr, DecidableEq

/-- `newBarrierSession()`: fresh session, all fields zero. -/
def newBarrierSession : BarrierSession :=
  { liveCount := 0, closed := 0, seqno := 0, objectRef := 0 }

/-- `CompareBS(this, that) = int(this.seqno) - int(that.seqno)`:
both `uint64` seqnos are converted to `int` (64-bit) and subtracted with
`int64` wrap-around. -/
def CompareBS (this that : Nat) : Int := i64 (toInt64 this - toInt64 that)

/-- The `AccessBarrier` record, with the current session kept separately
(the model passes the session object explicitly, mirroring the Go code
where `Release(bs)` mutates whichever session handle it is given).
The `freeq` skiplist of closed sessions is modelled as a list kept sorted
in ascending `seqno` order. -/
structure AccessBarrier where
  active : Bool
  activeSeqno : Nat
  freeSeqno : Nat
  freeq : List BarrierSession
  numAllocated : Int
  numFreed : Int
  isDestructorRunning : Int
  deriving Repr, DecidableEq

/-- Modelled from the spec: the barrier's `freeq` is a skiplist instance
ordered by `CompareBS` (ascending `seqno`); its `Insert` (the full
skiplist's four-argument `Insert`, not part of `src/`) places a session at
its sorted position.  This models that insertion as sorted-list insertion. -/
def freeqInsert (bs : BarrierSession) : List BarrierSession → List BarrierSession
  | [] => [bs]
  | c :: rest => if bs.seqno ≤ c.seqno then bs :: c :: rest
                 else c :: freeqInsert bs rest

/-- `doCleanup` from `access_barrier.go`: iterate the `freeq` in ascending
seqno order (modelled from the spec: the full skiplist's iterator, not part
of `src/`, visits nodes in `CompareBS` order); stop at the first session
whose `seqno` differs from `freeSeqno + 1`; otherwise increment `freeSeqno`,
call the destructor on `bs.objectRef` (recorded in the returned list),
delete the node and increment `numFreed`.
Returns (new `freeSeqno`, remaining queue, destructed sessions in order,
number freed). -/
def doCleanup (freeSeqno : Nat) : List BarrierSession →
    Nat × List BarrierSession × List BarrierSession × Nat
  | [] => (freeSeqno, [], [], 0)
  | bs :: rest =>
    if bs.seqno ≠ freeSeqno + 1 then (freeSeqno, bs :: rest, [], 0)
    else
      let r := doCleanup (freeSeqno + 1) rest
      (r.1, r.2.1, bs :: r.2.2.1, r.2.2.2 + 1)

/-- Outcome of the session-local part of `Release`. -/
inductive RelOutcome where
  | ok : RelOutcome
  | panicUR : RelOutcome
  | lastReader (alreadyClosed : Bool) : RelOutcome
  deriving Repr, DecidableEq

/-- The session-local part of `Release(bs)` on an active barrier:
decrement `liveCount`; if the result equals `barrierFlushOffset` this caller
is the last reader of a closed session (`alreadyClosed` records whether
`atomic.AddInt32(&bs.closed, 1)` returned something other than 1); if the
result is negative or equals `barrierFlushOffset - 1`, Go panics with
"Unsafe memory reclamation detected". -/
def releaseBS (bs : BarrierSession) : BarrierSession × RelOutcome :=
  let lc := i32 (bs.liveCount - 1)
  let bs1 : BarrierSession := { bs with liveCount := lc }
  if lc = barrierFlushOffset then
    let cl := i32 (bs1.closed + 1)
    ({ bs1 with closed := cl }, .lastReader (cl ≠ 1))
  else if lc < 0 ∨ lc = barrierFlushOffset - 1 then (bs1, .panicUR)
  else (bs1, .ok)

/-- `Release(bs)` on the whole barrier: no-op when inactive; otherwise the
session-local step, and in the last-reader case (when this caller's
`closed` increment returned 1) insert the session into `freeq` and, if the
`isDestructorRunning` CAS is won, run `doCleanup`.
Returns (barrier, session, panicked?, objectRefs destructed in order). -/
def ReleaseAB (ab : AccessBarrier) (bs : BarrierSession) :
    AccessBarrier × BarrierSession × Bool × List Nat :=
  if ab.active then
    match releaseBS bs with
    | (bs1, .ok) => (ab, bs1, false, [])
    | (bs1, .panicUR) => (ab, bs1, true, [])
    | (bs1, .lastReader alreadyClosed) =>
      if alreadyClosed then (ab, bs1, false, [])
      else
        let q := freeqInsert bs1 ab.freeq
        if ab.isDestructorRunning = 0 then
          let r := doCleanup ab.freeSeqno q
          ({ ab with freeq := r.2.1, freeSeqno := r.1,
                     numFreed := ab.numFreed + r.2.2.2,
                     isDestructorRunning := 0 },
           bs1, false, (r.2.2.1).map (·.objectRef))
        else ({ ab with freeq := q }, bs1, false, [])
  else (ab, bs, false, [])

/-- `Acquire()` on an active barrier whose current session is `bs`, in a
single-threaded run (the session reference does not change between
retries, so a retry reloads the same session).  Increment `liveCount`; if
the result exceeds `barrierFlushOffset` the session is closed: release and
retry.  `fuel` bounds the retry loop; `none` means the fuel ran out.
Returns (barrier, session, panicked during an inner release?, destructed
refs). -/
def AcquireAB : Nat → AccessBarrier → BarrierSession →
    Option (AccessBarrier × BarrierSession × Bool × List Nat)
  | 0, _, _ => none
  | fuel + 1, ab, bs =>
    if ab.active then
      let lc := i32 (bs.liveCount + 1)
      let bs1 : BarrierSession := { bs with liveCount := lc }
      if barrierFlushOffset < lc then
        match ReleaseAB ab bs1 with
        | (ab1, bs2, true, ds) => some (ab1, bs2, true, ds)
        | (ab1, bs2, false, ds) =>
          (AcquireAB fuel ab1 bs2).map fun r => (r.1, r.2.1, r.2.2.1, ds ++ r.2.2.2)
      else some (ab, bs1, false, [])
    else some (ab, bs, false, [])

/-- `FlushSession(ref)` on an active barrier (single-threaded): swap in a
fresh session, stamp the old session with `ref` and the next `activeSeqno`,
bias its `liveCount` by `barrierFlushOffset + 1`, then `Release` it.
Returns (barrier, old session after release, new session, panicked?,
destructed refs). -/
def FlushAB (ab : AccessBarrier) (bs : BarrierSession) (ref : Nat) :
    AccessBarrier × BarrierSession × BarrierSession × Bool × List Nat :=
  if ab.active then
    let newBs := newBarrierSession
    let seq := (ab.activeSeqno + 1) % W64
    let bs1 : BarrierSession := { bs with objectRef := ref, seqno := seq }
    let ab1 : AccessBarrier :=
      { ab with activeSeqno := seq, numAllocated := ab.numAllocated + 1 }
    let bs2 : BarrierSession := { bs1 with liveCount := i32 (bs1.liveCount + (barrierFlushOffset + 1)) }
    let r := ReleaseAB ab1 bs2
    (r.1, r.2.1, newBs, r.2.2.1, r.2.2.2)
  else (ab, bs, newBarrierSession, false, [])

/-! ## Skiplist random level (`skiplist/skiplist.go`) -/

/-- `MaxLevel = 32`. -/
def MaxLevel : Nat := 32

/-- Result of `randomLevel`. -/
structure RLRes where
  ret : Nat
  newLevel : Nat
  casAttempts : Nat
  deriving Repr, DecidableEq

/-- `randomLevel(randFn)` from `skiplist.go`.  The RNG is abstracted by
`k`, the number of initial samples of `randFn()` that are below `p = 0.25`
(the loop `for ; randFn() < p; nextLevel++ {}` computes exactly that
count).  `slAtLoad` is the value `atomic.LoadInt32(&s.level)` returns and
`slAtCas` the value of `s.level` at CAS time (equal to `slAtLoad` in a
single-threaded run; the CAS succeeds only when they agree). -/
def randomLevel (slAtLoad slAtCas k : Nat) : RLRes :=
  let nextLevel := if k > MaxLevel then MaxLevel else k
  let level := slAtLoad
  if nextLevel > level then
    { ret := level + 1
      newLevel := if slAtCas = level then level + 1 else slAtCas
      casAttempts := 1 }
  else
    { ret := nextLevel, newLevel := slAtCas, casAttempts := 0 }

/-- Items of the skiplist: the two `nilItem` sentinels (whose `Compare`
returns the stored `cmp`, `-1` for the head's item and `1` for the tail's,
irrespective of the argument) and the caller's items, modelled as integers
with the sign comparator. -/
inductive Itm where
  | minI : Itm
  | val (v : Int) : Itm
  | maxI : Itm
  deriving Repr, DecidableEq

/-- `a.Compare(b)`: `nilItem` rows return the stored `cmp`; user items use
the caller's total order (sign of the integer comparison). -/
def Itm.cmp : Itm → Itm → Int
  | .minI, _ => -1
  | .maxI, _ => 1
  | .val a, .val b => if a < b then -1 else if b < a then 1 else 0
  | .val _, .minI => 1
  | .val _, .maxI => -1

/-- A skiplist `Node`: the immutable item, the immutable `level`, and
`level+1` successor slots.  A slot is `none` for a `nil` reference (as
`newNode` allocates them) or `some (ptr, deleted)` for a `NodeRef`;
`ptr` is the index of the successor node in the heap. -/
structure Node where
  itm : Itm
  level : Nat
  next : List (Option (Nat × Bool))
  deriving Repr, DecidableEq

/-- The skiplist heap: nodes are addressed by their index in `nodes`
(the head sentinel is node 0, the tail sentinel node 1), and `slevel`
is the atomically updated current top level `s.level`. -/
structure SL where
  nodes : List Node
  slevel : Nat
  deriving Repr, DecidableEq

/-- `newNode(itm, level)`: `level+1` nil successor slots. -/
def newNode (itm : Itm) (level : Nat) : Node :=
  { itm := itm, level := level, next := List.replicate (level + 1) none }

/-- `New()`: head and tail sentinels of level `MaxLevel`;
`head.setNext(i, tail, false)` for every `i ≤ MaxLevel`; `s.level = 0`. -/
def newSL : SL :=
  { nodes := [{ newNode .minI MaxLevel with
                  next := List.replicate (MaxLevel + 1) (some (1, false)) },
              newNode .maxI MaxLevel],
    slevel := 0 }

/-- The node stored at index `n` (node 0 if out of range; well-formed
runs only read valid indices). -/
def getNode (st : SL) (n : Nat) : Node := st.nodes.getD n (newNode .minI 0)

/-- The raw successor slot of node `n` at level `i`. -/
def getSlot (st : SL) (n i : Nat) : Option (Nat × Bool) :=
  (getNode st n).next.getD i none

/-- `n.getNext(level)`: a nil reference reads as `(nil, false)`. -/
def getNext (st : SL) (n i : Nat) : Option Nat × Bool :=
  match getSlot st n i with
  | none => (none, false)
  | some (p, d) => (some p, d)

/-- Overwrite the successor slot of node `n` at level `i`
(`n.setNext(i, ptr, deleted)`). -/
def setSlot (st : SL) (n i : Nat) (p : Nat) (d : Bool) : SL :=
  let nd := getNode st n
  { st with nodes := st.nodes.set n { nd with next := nd.next.set i (some (p, d)) } }

/-- `n.dcasNext(level, prevPtr, newPtr, prevIsdeleted, newIsdeleted)`:
load the slot; a nil reference never swaps; otherwise swap exactly when
the loaded pair equals the expected one.  (In this sequential embedding
the compare and the swap read the same state, so the CAS semantics is
exact.) -/
def dcasNext (st : SL) (n i : Nat) (prevPtr : Option Nat) (newPtr : Nat)
    (prevD newD : Bool) : SL × Bool :=
  match getSlot st n i with
  | none => (st, false)
  | some (p, d) =>
    if some p = prevPtr ∧ d = prevD then (setSlot st n i newPtr newD, true)
    else (st, false)

/-- Result of one level of the `findPath` walk. -/
inductive SRes where
  | stuck : SRes
  | retry (st : SL) : SRes
  | done (st : SL) (prev curr : Nat) (cmpv : Int) : SRes
  deriving Repr

/-- The `levelSearch` loop of `findPath` at level `i`: load
`(next, deleted) := curr.getNext(i)`; while `deleted`, help
(`prev.dcasNext(i, curr, next, false, false)`), restarting the whole walk
if the help CAS fails, else reload `curr` from `prev`; once unmarked,
advance `prev := curr` while `curr.itm.Compare(itm) < 0`, else stop with
the current `cmpVal`.  `fuel` bounds the loop; dereferencing a nil
reference (a Go panic) is also reported as `stuck`. -/
def levelSearch : Nat → SL → Itm → Nat → Nat → Nat → SRes
  | 0, _, _, _, _, _ => .stuck
  | fuel + 1, st, itm, i, prev, curr =>
    match getNext st curr i with
    | (nxtO, true) =>
      match nxtO with
      | none => .stuck
      | some nxt =>
        match dcasNext st prev i (some curr) nxt false false with
        | (_, false) => .retry st
        | (st1, true) =>
          match (getNext st1 prev i).1 with
          | none => .stuck
          | some curr1 => levelSearch fuel st1 itm i prev curr1
    | (_, false) =>
      if (getNode st curr).itm.cmp itm < 0 then
        match (getNext st curr i).1 with
        | none => .stuck
        | some curr1 => levelSearch fuel st itm i curr curr1
      else .done st prev curr ((getNode st curr).itm.cmp itm)

/-- Result of the whole `findPath` descent. -/
inductive FRes where
  | stuck : FRes
  | retry (st : SL) : FRes
  | done (st : SL) (preds succs : List (Option Nat)) (found : Bool) : FRes
  deriving Repr

/-- The level loop of `findPath`: `for i := level; i >= 0; i--`, threading
`prev` from level to level, recording `preds[i]`/`succs[i]`, and computing
`found` from the level-0 `cmpVal`. -/
def findLoop : Nat → SL → Itm → Nat → Nat → List (Option Nat) →
    List (Option Nat) → FRes
  | fuel, st, itm, i, prev, preds, succs =>
    match (getNext st prev i).1 with
    | none => .stuck
    | some curr0 =>
      match levelSearch fuel st itm i prev curr0 with
      | .stuck => .stuck
      | .retry st1 => .retry st1
      | .done st1 prev1 curr1 cmpv =>
        let preds1 := preds.set i (some prev1)
        let succs1 := succs.set i (some curr1)
        match i with
        | 0 => .done st1 preds1 succs1 (cmpv == 0)
        | i' + 1 => findLoop fuel st1 itm i' prev1 preds1 succs1

/-- `findPath(itm)`: walk from the head at the loaded `s.level`; on a
failed help CAS restart from scratch (`goto retry`).  Each restart and
each loop iteration consume fuel; `none` means the fuel ran out (or a Go
panic path was reached). -/
def findPath : Nat → SL → Itm →
    Option (SL × List (Option Nat) × List (Option Nat) × Bool)
  | 0, _, _ => none
  | fuel + 1, st, itm =>
    match findLoop (fuel + 1) st itm st.slevel 0
        (List.replicate (MaxLevel + 1) none) (List.replicate (MaxLevel + 1) none) with
    | .stuck => none
    | .retry st1 => findPath fuel st1 itm
    | .done st1 preds succs found => some (st1, preds, succs, found)

/-- Allocate a node: its address is the current heap size. -/
def allocNode (st : SL) (itm : Itm) (level : Nat) : Nat × SL :=
  (st.nodes.length, { st with nodes := st.nodes ++ [newNode itm level] })

/-- The linking loop of `Insert2`.  The level-0 step of `Insert2`
(`x.setNext(0, succs[0], false)`; CAS; on failure re-run `findPath` and
retry) has exactly the shape of the `fixThisLevel` loop for `i ≥ 1`, so
one recursion starting at `i = 0` embeds both.  A failed CAS consumes
fuel and re-runs `findPath`. -/
def fixLevels : Nat → SL → Itm → Nat → Nat → Nat → List (Option Nat) →
    List (Option Nat) → Option SL
  | 0, _, _, _, _, _, _, _ => none
  | fuel + 1, st, itm, x, itemLevel, i, preds, succs =>
    if itemLevel < i then some st
    else
      match preds.getD i none, succs.getD i none with
      | some pi, some si =>
        let st1 := setSlot st x i si false
        let r := dcasNext st1 pi i (some si) x false false
        if r.2 then fixLevels fuel r.1 itm x itemLevel (i + 1) preds succs
        else
          match findPath (fuel + 1) r.1 itm with
          | none => none
          | some (st3, p1, s1, _) => fixLevels fuel st3 itm x itemLevel i p1 s1
      | _, _ => none

/-- `Insert2(itm, randFn)`: pick the level (`k` abstracts the RNG as in
`randomLevel`), allocate the node, `findPath`, then link level by level. -/
def insert2 (fuel : Nat) (st : SL) (v : Int) (k : Nat) : Option SL :=
  match fuel with
  | 0 => none
  | f + 1 =>
    let r := randomLevel st.slevel st.slevel k
    let st0 : SL := { st with slevel := r.newLevel }
    let (x, st1) := allocNode st0 (.val v) r.ret
    match findPath (f + 1) st1 (.val v) with
    | none => none
    | some (st2, preds, succs, _) => fixLevels f st2 (.val v) x r.ret 0 preds succs

/-- The inner `for !deleted` loop of `Delete` at one level: load the edge;
if unmarked, `deleteMarked = delNode.dcasNext(i, next, next, false, true)`
and reload.  A nil reference makes the Go loop spin (the CAS on a nil
reference always fails), so it exhausts the fuel. -/
def markInner : Nat → SL → Nat → Nat → Bool → Option (SL × Bool)
  | fuel, st, node, i, dm =>
    match getNext st node i with
    | (_, true) => some (st, dm)
    | (nxtO, false) =>
      match fuel with
      | 0 => none
      | f + 1 =>
        match nxtO with
        | none => markInner f st node i false
        | some nxt =>
          match dcasNext st node i (some nxt) nxt false true with
          | (st1, ok) => markInner f st1 node i ok

/-- The marking loop of `Delete`: `for i := targetLevel; i >= 0; i--`,
threading the `deleteMarked` flag through every executed CAS. -/
def markLevels : SL → Nat → Nat → Nat → Bool → Option (SL × Bool)
  | st, node, i, fuel, dm =>
    match markInner fuel st node i dm with
    | none => none
    | some (st1, dm1) =>
      match i with
      | 0 => some (st1, dm1)
      | i' + 1 => markLevels st1 node i' fuel dm1

/-- `Delete(itm)`: `findPath`; return if not found; otherwise mark
`succs[0]` top-down from its level, and re-run `findPath` only when the
final `deleteMarked` flag is true. -/
def deleteOp (fuel : Nat) (st : SL) (v : Int) : Option SL :=
  match findPath fuel st (.val v) with
  | none => none
  | some (st1, _, succs, found) =>
    if found then
      match succs.getD 0 none with
      | none => none
      | some delNode =>
        match markLevels st1 delNode (getNode st1 delNode).level fuel false with
        | none => none
        | some (st2, dm) =>
          if dm then (findPath fuel st2 (.val v)).map (·.1) else some st2
    else some st1

/-- The Go function `Delete` declares no results: its return value is the
unit value.  (The `Option SL` of `deleteOp` is the mutated heap — a
by-reference effect — plus fuel accounting, not a Go return value.) -/
def deleteReturn (fuel : Nat) (st : SL) (v : Int) : Unit := ()

/-- A single-threaded operation on the skiplist. -/
inductive Op where
  | ins (v : Int) (k : Nat) : Op
  | del (v : Int) : Op
  deriving Repr, DecidableEq

/-- Run a sequence of single-threaded operations. -/
def runOps (fuel : Nat) : SL → List Op → Option SL
  | st, [] => some st
  | st, op :: rest =>
    match (match op with
           | .ins v k => insert2 fuel st v k
           | .del v => deleteOp fuel st v) with
    | none => none
    | some st1 => runOps fuel st1 rest

/-- The level-0 chain from node `n`: follow `next[0]` pointers until the
tail sentinel (node 1). -/
def chainFrom (st : SL) : Nat → Nat → Option (List Nat)
  | 0, _ => none
  | fuel + 1, n =>
    if n = 1 then some [1]
    else
      match (getNext st n 0).1 with
      | none => none
      | some m => (chainFrom st fuel m).map (n :: ·)

/-- The level-0 chain from the head sentinel. -/
def chainOf (st : SL) : Option (List Nat) := chainFrom st (st.nodes.length + 1) 0

/-- The user items encountered along a chain, excluding nodes whose
level-0 outgoing edge is marked deleted (and the sentinels, whose items
are not the caller's). -/
def liveVals (st : SL) (l : List Nat) : List Int :=
  l.filterMap fun n =>
    if (getNext st n 0).2 then none
    else
      match (getNode st n).itm with
      | .val v => some v
      | _ => none

/-! ## Delete's marking loop under a concurrent deleter (for claim C4) -/

/-- The marking loop of `Delete` under a mark-only adversary (a concurrent
deleter of the same node may set the deleted bit of any edge between our
primitive steps; it never changes pointers).  One list entry per level,
ordered top-down as the loop runs: `(deleted, advLoad, advCas)` is the
initial deleted bit, whether the adversary marks the edge before our
initial load, and whether it marks it between our load and our CAS.
Under mark-only interference each level executes at most one CAS: a
successful CAS marks the edge and the reload exits; a failed CAS means
the bit is already set, and the reload exits too.
Returns (final deleted bits, final `deleteMarked` flag — assigned by every
executed CAS, exactly as the Go local variable — , number of CASes that
succeeded). -/
def delMarkAdv : List (Bool × Bool × Bool) → Bool → List Bool × Bool × Nat
  | [], dm => ([], dm, 0)
  | (e, aLoad, aCas) :: rest, dm =>
    if e || aLoad then
      let r := delMarkAdv rest dm
      ((e || aLoad) :: r.1, r.2.1, r.2.2)
    else
      let ok := !aCas
      let r := delMarkAdv rest ok
      (true :: r.1, r.2.1, r.2.2 + (if ok then 1 else 0))

/-- `Delete` re-runs `findPath(itm)` after the marking loop exactly when
the final `deleteMarked` flag is true (`if deleteMarked { s.findPath(itm) }`). -/
def delCleanupRuns (sched : List (Bool × Bool × Bool)) : Bool :=
  (delMarkAdv sched false).2.1

/-- The results of the marking CASes the loop executes, in execution
order (a level whose edge is already marked at load time executes none). -/
def delMarkResults : List (Bool × Bool × Bool) → List Bool
  | [] => []
  | (e, aLoad, aCas) :: rest =>
    if e || aLoad then delMarkResults rest
    else (!aCas) :: delMarkResults rest

/-! ## Invariants and concrete states used by the theorems -/

/-- The non-strict order on items induced by the comparator: the head
sentinel's item is a least element, the tail sentinel's a greatest one,
and user items compare as integers. -/
def Itm.le : Itm → Itm → Prop
  | .minI, _ => True
  | _, .maxI => True
  | .val v, .val w => v ≤ w
  | .maxI, _ => False
  | .val _, .minI => False

/-- No successor slot of any node at any level stores a pointer to `x`
(so `x` is unreachable: it is a freshly allocated, not yet linked node). -/
def NoPtrTo (st : SL) (x : Nat) : Prop :=
  ∀ m i q d, getSlot st m i = some (q, d) → q ≠ x

/-- `l` is the level-0 chain of `st`: it starts at the head sentinel,
ends at the tail sentinel, visits no node twice, follows the level-0
successor pointers, stays inside the heap, and its items are
non-decreasing. -/
structure ChainOk (st : SL) (l : List Nat) : Prop where
  headIs : l.head? = some 0
  lastIs : l.getLast? = some 1
  nodup : l.Nodup
  bounded : ∀ n ∈ l, n < st.nodes.length
  adj : l.Chain' (fun a b => (getNext st a 0).1 = some b)
  sorted : (l.map (fun n => (getNode st n).itm)).Pairwise Itm.le

/-- The heap invariant maintained by every single-threaded operation. -/
structure Inv (st : SL) : Prop where
  hlen : 2 ≤ st.nodes.length
  hslev : st.slevel ≤ MaxLevel
  head_itm : (getNode st 0).itm = .minI
  tail_nil : ∀ i, getSlot st 1 i = none
  ptrs : ∀ m i q d, getSlot st m i = some (q, d) → q < st.nodes.length
  chain : ∃ l, ChainOk st l

/-- How a state may evolve during an operation that allocates nothing:
the heap size, the top level, every node's item, level and slot count
are unchanged, the invariant is preserved, and an unreachable node stays
unreachable. -/
def Evo (st0 st1 : SL) : Prop :=
  st1.nodes.length = st0.nodes.length ∧ st1.slevel = st0.slevel ∧
  (∀ a, (getNode st1 a).itm = (getNode st0 a).itm) ∧
  (∀ a, (getNode st1 a).level = (getNode st0 a).level) ∧
  (∀ a, (getNode st1 a).next.length = (getNode st0 a).next.length) ∧
  (Inv st0 → Inv st1) ∧
  (∀ x, NoPtrTo st0 x → NoPtrTo st1 x)

/-- Facts `findPath` guarantees about every filled `preds` entry: a valid
node whose item compares strictly below the searched item. -/
def PredsOk (st : SL) (itm : Itm) (preds : List (Option Nat)) : Prop :=
  ∀ i pi, preds.getD i none = some pi →
    pi < st.nodes.length ∧ (getNode st pi).itm.cmp itm < 0

/-- Facts `findPath` guarantees about every filled `succs` entry: a valid
node whose item does not compare below the searched item. -/
def SuccsOk (st : SL) (itm : Itm) (succs : List (Option Nat)) : Prop :=
  ∀ i si, succs.getD i none = some si →
    si < st.nodes.length ∧ ¬ (getNode st si).itm.cmp itm < 0

/-- No filled entry of the list is the (unlinked) node `x`. -/
def FreshOk (x : Nat) (ps : List (Option Nat)) : Prop :=
  ∀ i pi, ps.getD i none = some pi → pi ≠ x

/-- A barrier with no history, used to instantiate theorems. -/
def abEx : AccessBarrier :=
  { active := true, activeSeqno := 0, freeSeqno := 0, freeq := [],
    numAllocated := 1, numFreed := 0, isDestructorRunning := 0 }

/-- A session with the given live count, used to instantiate theorems. -/
def bsEx (lc : Int) : BarrierSession :=
  { liveCount := lc, closed := 0, seqno := 0, objectRef := 0 }

/-- A concrete closed-session queue with a gap after seqno 2. -/
def freeqEx : List BarrierSession :=
  [{ liveCount := 0, closed := 0, seqno := 1, objectRef := 11 },
   { liveCount := 0, closed := 0, seqno := 2, objectRef := 12 },
   { liveCount := 0, closed := 0, seqno := 4, objectRef := 14 }]

/-- A skiplist holding the single item 5. -/
def sl5 : SL := (insert2 20 newSL 5 0).getD newSL

/-- The state after inserting 5 and 2 and deleting 5, single-threaded. -/
def slE1 : SL :=
  (runOps 20 newSL [.ins 5 0, .ins 2 1, .del 5]).getD newSL

/-- The adversary schedule of claim C4's counterexample: the node has two
levels, the CAS at level 1 succeeds, and at level 0 a concurrent deleter
marks the edge between our load and our CAS, so the last executed CAS
fails. -/
def cexSched : List (Bool × Bool × Bool) :=
  [(false, false, false), (false, false, true)]

/-! # Theorems -/

/-! ## Machine-integer basics -/

theorem i32_id (z : Int) (h0 : -(2 ^ 31) ≤ z) (h1 : z < 2 ^ 31) : i32 z = z := by
  unfold i32
  have : (z + 2 ^ 31) % 2 ^ 32 = z + 2 ^ 31 := Int.emod_eq_of_lt (by omega) (by omega)
  omega

theorem i64_id (z : Int) (h0 : -(2 ^ 63) ≤ z) (h1 : z < 2 ^ 63) : i64 z = z := by
  unfold i64
  have : (z + 2 ^ 63) % 2 ^ 64 = z + 2 ^ 63 := Int.emod_eq_of_lt (by omega) (by omega)
  omega

theorem barrierFlushOffset_val : barrierFlushOffset = 1073741823 := by decide

/-- In every branch of `releaseBS`, the returned session's `liveCount` is
the wrapped decrement of the input's. -/
theorem releaseBS_liveCount (bs : BarrierSession) :
    ((releaseBS bs).1).liveCount = i32 (bs.liveCount - 1) := by
  simp only [releaseBS]
  split_ifs <;> rfl

/-- On an active barrier, the session `ReleaseAB` returns is the one
`releaseBS` produces (the barrier-level branches never touch it again). -/
theorem ReleaseAB_session (ab : AccessBarrier) (bs : BarrierSession)
    (h : ab.active = true) : (ReleaseAB ab bs).2.1 = (releaseBS bs).1 := by
  unfold ReleaseAB
  rw [h]
  rcases hr : releaseBS bs with ⟨bs1, out⟩
  cases out with
  | ok => simp
  | panicUR => simp
  | lastReader a =>
    simp only [if_true]
    split_ifs <;> simp

/-! ## Claim C2: the barrier flush offset constant -/

/-- C2, counterexample: the claim says `barrierFlushOffset = 2^30 =
1073741824`, but the constant is `math.MaxInt32 / 2 = (2^31 - 1) / 2 =
1073741823`, strictly below `2^30`. -/
theorem C2_barrierFlushOffset_counterexample :
    barrierFlushOffset = 1073741823 ∧ barrierFlushOffset < 2 ^ 30 := by
  constructor <;> decide

/-- C2 (amended): the barrier flush offset constant equals
`⌊(2^31 − 1) / 2⌋ = 2^30 − 1 = 1073741823`, and every comparison and bias
of a session's `liveCount` in `Acquire`, `Release` and `FlushSession`
uses exactly this value of `barrierFlushOffset`: `Release` decides the
last-reader case by `liveCount == barrierFlushOffset` and the fault case
by `liveCount < 0 || liveCount == barrierFlushOffset - 1`; `Acquire`
returns without retrying exactly when the incremented count is at most
`barrierFlushOffset`; and `FlushSession` biases the closed session's
count by `barrierFlushOffset + 1` before its own release. -/
theorem C2_barrierFlushOffset_amended :
    barrierFlushOffset = 2 ^ 30 - 1 ∧
    barrierFlushOffset = (2 ^ 31 - 1) / 2 ∧
    (∀ bs : BarrierSession,
      ((releaseBS bs).2 = RelOutcome.panicUR ↔
        (i32 (bs.liveCount - 1) < 0 ∨
          i32 (bs.liveCount - 1) = barrierFlushOffset - 1))) ∧
    (∀ bs : BarrierSession,
      ((∃ b, (releaseBS bs).2 = RelOutcome.lastReader b) ↔
        i32 (bs.liveCount - 1) = barrierFlushOffset)) ∧
    (∀ fuel ab bs, ab.active = true → i32 (bs.liveCount + 1) ≤ barrierFlushOffset →
      AcquireAB (fuel + 1) ab bs =
        some (ab, { bs with liveCount := i32 (bs.liveCount + 1) }, false, [])) ∧
    (∀ ab bs ref, ab.active = true →
      ((FlushAB ab bs ref).2.1).liveCount =
        i32 (i32 (bs.liveCount + (barrierFlushOffset + 1)) - 1)) := by
  refine ⟨by decide, by decide, ?_, ?_, ?_, ?_⟩
  · intro bs
    simp only [releaseBS]
    split_ifs with h1 h2
    · refine iff_of_false (by simp) ?_
      rw [h1]; decide
    · exact iff_of_true rfl h2
    · exact iff_of_false (by simp) h2
  · intro bs
    simp only [releaseBS]
    split_ifs with h1 h2
    · exact iff_of_true ⟨_, rfl⟩ h1
    · constructor
      · rintro ⟨b, hb⟩; simp at hb
      · intro h; exact absurd h h1
    · constructor
      · rintro ⟨b, hb⟩; simp at hb
      · intro h; exact absurd h h1
  · intro fuel ab bs hact hle
    have hn : ¬ barrierFlushOffset < i32 (bs.liveCount + 1) := not_lt.mpr hle
    simp only [AcquireAB, hact, if_true, if_neg hn]
  · intro ab bs ref hact
    unfold FlushAB
    rw [hact]
    simp only [if_true]
    rw [ReleaseAB_session _ _ rfl, releaseBS_liveCount]

/-! ## Claim C3: bin fragmentation percentage -/

/-- C3, counterexample: with `curregs = 2, curslabs = 1, nregs = 1` the
`uint64` subtraction `100 - 200` wraps around, so the result is
`2^64 - 100`, far outside `[0, 100]` and different from the (negative)
exact value `100 - 200`. -/
theorem C3_computeBinFrag_counterexample :
    computeBinFrag 2 1 1 = 18446744073709551516 ∧
    100 < computeBinFrag 2 1 1 := by
  constructor <;> decide

/-- C3 (amended): when `curslabs` and `nregs` are positive, the used
count does not exceed the capacity (`curregs ≤ curslabs · nregs`) and the
products `100·curregs` and `curslabs·nregs` do not overflow `uint64`, the
computed percentage equals `100 − ⌊(100·curregs)/(curslabs·nregs)⌋` and
lies in `[0, 100]`; when `curslabs = 0` or `nregs = 0` it is `0`.  (For
`curregs > curslabs · nregs` the `uint64` subtraction wraps, as the
counterexample shows.)  The spec's instances: `(75, 5, 20) ↦ 25` and a
zero slab count yields `0`. -/
theorem C3_computeBinFrag_amended : ∀ curregs curslabs nregs : Nat,
    (0 < curslabs → 0 < nregs → curregs ≤ curslabs * nregs →
      100 * curregs < W64 → curslabs * nregs < W64 →
      computeBinFrag curregs curslabs nregs
          = 100 - (100 * curregs) / (curslabs * nregs) ∧
      computeBinFrag curregs curslabs nregs ≤ 100) ∧
    (curslabs = 0 ∨ nregs = 0 → computeBinFrag curregs curslabs nregs = 0) := by
  intro c s n
  constructor
  · intro hs hn hle h1 h2
    have hsn : 0 < s * n := Nat.mul_pos hs hn
    have hq : (100 * c) / (s * n) ≤ 100 := by
      calc (100 * c) / (s * n) ≤ (100 * (s * n)) / (s * n) :=
            Nat.div_le_div_right (by exact Nat.mul_le_mul_left 100 hle)
        _ = 100 := Nat.mul_div_cancel 100 hsn
    have hcond : ¬(s = 0 || n = 0) = true := by
      simp only [Bool.or_eq_true, decide_eq_true_eq]
      omega
    unfold computeBinFrag umul64 usub64
    have hW : W64 = 18446744073709551616 := by decide
    rw [if_neg hcond, Nat.mod_eq_of_lt h1, Nat.mod_eq_of_lt h2, hW]
    obtain ⟨q, hqe⟩ : ∃ q, 100 * c / (s * n) = q := ⟨_, rfl⟩
    rw [hqe] at hq ⊢
    constructor <;> omega
  · intro h
    unfold computeBinFrag
    rw [if_pos]
    rcases h with h | h <;> simp [h]

/-- C3, witness: the spec's own instance `(75, 5, 20) ↦ 25`, through the
amended theorem. -/
theorem C3_computeBinFrag_witness :
    computeBinFrag 75 5 20 = 100 - (100 * 75) / (5 * 20) ∧
    computeBinFrag 75 5 20 ≤ 100 :=
  (C3_computeBinFrag_amended 75 5 20).1 (by decide) (by decide) (by decide)
    (by decide) (by decide)

/-! ## Claim C7: randomLevel -/

/-- C7: when the RNG yields `k` sub-`p` samples, `randomLevel` returns
`min k MaxLevel` without a CAS when that value does not exceed the loaded
top level; otherwise it attempts exactly one CAS and returns
`loaded + 1` regardless of the CAS outcome; the returned level and the
resulting top-level counter never exceed `MaxLevel = 32`. -/
theorem C7_randomLevel_spec : ∀ slAtLoad slAtCas k : Nat,
    slAtLoad ≤ MaxLevel → slAtCas ≤ MaxLevel →
    (min k MaxLevel ≤ slAtLoad →
      randomLevel slAtLoad slAtCas k =
        { ret := min k MaxLevel, newLevel := slAtCas, casAttempts := 0 }) ∧
    (slAtLoad < min k MaxLevel →
      (randomLevel slAtLoad slAtCas k).ret = slAtLoad + 1 ∧
      (randomLevel slAtLoad slAtCas k).casAttempts = 1) ∧
    (randomLevel slAtLoad slAtCas k).ret ≤ MaxLevel ∧
    (randomLevel slAtLoad slAtCas k).newLevel ≤ MaxLevel := by
  intro L C k hL hC
  have hmin : (if k > MaxLevel then MaxLevel else k) = min k MaxLevel := by
    unfold MaxLevel
    split_ifs <;> omega
  unfold randomLevel
  rw [hmin]
  by_cases h : min k MaxLevel > L
  · rw [if_pos h]
    refine ⟨fun hle => absurd h (not_lt.mpr hle), fun _ => ⟨rfl, rfl⟩, ?_, ?_⟩
    · show L + 1 ≤ MaxLevel
      unfold MaxLevel at *; omega
    · show (if C = L then L + 1 else C) ≤ MaxLevel
      split_ifs with hc
      · unfold MaxLevel at *; omega
      · exact hC
  · rw [if_neg h]
    refine ⟨fun _ => rfl, fun hlt => absurd hlt h, ?_, hC⟩
    show min k MaxLevel ≤ MaxLevel
    exact min_le_right _ _

/-- C7, witness: a loaded top level of 0 with three sub-`p` samples. -/
theorem C7_randomLevel_witness :
    (min 3 MaxLevel ≤ 0 →
      randomLevel 0 0 3 =
        { ret := min 3 MaxLevel, newLevel := 0, casAttempts := 0 }) ∧
    (0 < min 3 MaxLevel →
      (randomLevel 0 0 3).ret = 0 + 1 ∧ (randomLevel 0 0 3).casAttempts = 1) ∧
    (randomLevel 0 0 3).ret ≤ MaxLevel ∧
    (randomLevel 0 0 3).newLevel ≤ MaxLevel :=
  C7_randomLevel_spec 0 0 3 (by decide) (by decide)

/-! ## Claim C8: Release raises UnsafeReclamation -/

/-- The `Release` fault condition, stated on the session-local step. -/
theorem releaseBS_panic_iff (bs : BarrierSession) :
    (releaseBS bs).2 = RelOutcome.panicUR ↔
      (i32 (bs.liveCount - 1) < 0 ∨
        i32 (bs.liveCount - 1) = barrierFlushOffset - 1) := by
  simp only [releaseBS]
  split_ifs with h1 h2
  · refine iff_of_false (by simp) ?_
    rw [h1]; decide
  · exact iff_of_true rfl h2
  · exact iff_of_false (by simp) h2

/-- On an active barrier, `ReleaseAB` reports a panic exactly when the
session-local step panics. -/
theorem ReleaseAB_panic (ab : AccessBarrier) (bs : BarrierSession)
    (h : ab.active = true) :
    (ReleaseAB ab bs).2.2.1 = true ↔ (releaseBS bs).2 = RelOutcome.panicUR := by
  unfold ReleaseAB
  rw [h]
  rcases hr : releaseBS bs with ⟨bs1, out⟩
  cases out with
  | ok => simp
  | panicUR => simp
  | lastReader a =>
    simp only [if_true]
    split_ifs <;> simp

/-- C8: on an active barrier, `Release(bs)` raises the irrecoverable
"Unsafe memory reclamation detected" fault iff the decremented
`liveCount` is negative or equals `barrierFlushOffset - 1`; in every
other case it returns without the fault. -/
theorem C8_release_panics_iff : ∀ (ab : AccessBarrier) (bs : BarrierSession),
    ab.active = true →
    ((ReleaseAB ab bs).2.2.1 = true ↔
      (i32 (bs.liveCount - 1) < 0 ∨
        i32 (bs.liveCount - 1) = barrierFlushOffset - 1)) :=
  fun ab bs h => (ReleaseAB_panic ab bs h).trans (releaseBS_panic_iff bs)

/-- C8, witness: a session with five live readers does not fault. -/
theorem C8_release_panics_witness :
    (ReleaseAB abEx (bsEx 5)).2.2.1 = true ↔
      (i32 ((bsEx 5).liveCount - 1) < 0 ∨
        i32 ((bsEx 5).liveCount - 1) = barrierFlushOffset - 1) :=
  C8_release_panics_iff abEx (bsEx 5) rfl

/-! ## Claim C9: CompareBS orders sessions by seqno -/

/-- C9, counterexample: with `a.seqno = 0 < b.seqno = 2^63 + 1`,
`CompareBS` is `2^63 - 1 > 0` (the `uint64 → int` conversion wraps), while
the claim demands a negative result. -/
theorem C9_CompareBS_counterexample :
    CompareBS 0 (2 ^ 63 + 1) = 2 ^ 63 - 1 ∧
    (0 : Nat) < 2 ^ 63 + 1 ∧
    0 < CompareBS 0 (2 ^ 63 + 1) := by
  refine ⟨?_, by decide, ?_⟩ <;> decide

/-- C9 (amended): for sessions whose seqnos are both below `2^63`,
`CompareBS` is negative, zero or positive exactly as `a.seqno` compares
to `b.seqno`; for larger seqnos the `int64` conversion and subtraction
wrap and can misorder, as the counterexample shows. -/
theorem C9_CompareBS_amended : ∀ a b : Nat, a < 2 ^ 63 → b < 2 ^ 63 →
    ((CompareBS a b < 0 ↔ a < b) ∧ (CompareBS a b = 0 ↔ a = b) ∧
      (0 < CompareBS a b ↔ b < a)) := by
  intro a b ha hb
  have h : CompareBS a b = (a : Int) - b := by
    unfold CompareBS toInt64
    rw [if_pos ha, if_pos hb]
    exact i64_id _ (by omega) (by omega)
  rw [h]
  refine ⟨?_, ?_, ?_⟩ <;> omega

/-- C9, witness: seqnos 3 and 5 in the no-wrap range. -/
theorem C9_CompareBS_witness :
    (CompareBS 3 5 < 0 ↔ 3 < 5) ∧ (CompareBS 3 5 = 0 ↔ 3 = 5) ∧
      (0 < CompareBS 3 5 ↔ 5 < 3) :=
  C9_CompareBS_amended 3 5 (by decide) (by decide)

/-! ## Claim C10: Acquire/Release round trip -/

/-- C10: on an active barrier whose current session has live count `c`
with `0 ≤ c` and `c + 1 < barrierFlushOffset - 1`, `Acquire` returns the
session with live count `c + 1` (no retry, no panic, no destructor), and
a subsequent `Release` of that session restores the session exactly —
live count `c`, `closed` untouched — without panicking and without
destructing anything. -/
theorem C10_acquire_release : ∀ (fuel : Nat) (ab : AccessBarrier)
    (bs : BarrierSession) (c : Int), ab.active = true →
    bs.liveCount = c → 0 ≤ c → c + 1 < barrierFlushOffset - 1 →
    AcquireAB (fuel + 1) ab bs =
      some (ab, { bs with liveCount := c + 1 }, false, []) ∧
    ReleaseAB ab { bs with liveCount := c + 1 } = (ab, bs, false, []) := by
  intro fuel ab bs c hact hlc h0 hub
  have hoff : barrierFlushOffset = 1073741823 := by decide
  rw [hoff] at hub
  subst hlc
  have hi1 : i32 (bs.liveCount + 1) = bs.liveCount + 1 :=
    i32_id _ (by omega) (by omega)
  have hic : i32 bs.liveCount = bs.liveCount := i32_id _ (by omega) (by omega)
  constructor
  · have hn : ¬ barrierFlushOffset < bs.liveCount + 1 := by
      rw [hoff]; omega
    simp only [AcquireAB, hact, if_true, hi1, if_neg hn]
  · have hq : releaseBS { bs with liveCount := bs.liveCount + 1 } =
        (bs, RelOutcome.ok) := by
      simp only [releaseBS, add_sub_cancel_right, hic]
      rw [if_neg (by rw [hoff]; omega), if_neg (by rw [hoff]; omega)]
    unfold ReleaseAB
    rw [hact]
    simp only [if_true, hq]

/-- C10, witness: a session with live count 5 on a fresh active barrier. -/
theorem C10_acquire_release_witness :
    AcquireAB (0 + 1) abEx (bsEx 5) =
      some (abEx, { bsEx 5 with liveCount := 5 + 1 }, false, []) ∧
    ReleaseAB abEx { bsEx 5 with liveCount := 5 + 1 } =
      (abEx, bsEx 5, false, []) :=
  C10_acquire_release 0 abEx (bsEx 5) 5 rfl rfl (by decide) (by decide)

/-! ## Claim C4: Delete's cleanup findPath -/

/-- The final `deleteMarked` flag is the result of the last marking CAS
the loop executed (`false` when none was executed): the Go local is
overwritten by every executed CAS. -/
theorem delMarkAdv_flag : ∀ (sched : List (Bool × Bool × Bool)) (dm : Bool),
    (delMarkAdv sched dm).2.1 = (delMarkResults sched).getLastD dm := by
  intro sched
  induction sched with
  | nil => intro dm; rfl
  | cons hd tl ih =>
    intro dm
    obtain ⟨e, aL, aC⟩ := hd
    by_cases h : (e || aL) = true
    · simp only [delMarkAdv, delMarkResults, if_pos h, ih]
    · simp only [delMarkAdv, delMarkResults, if_neg h, ih, List.getLastD_cons]

/-- C4, counterexample: on the schedule `cexSched` the CAS at level 1
succeeds (one successful marking CAS), but the CAS at level 0 — the last
one executed — fails because a concurrent deleter marked the edge first,
so `deleteMarked` ends `false` and `Delete` does not re-run `findPath`. -/
theorem C4_delete_cleanup_counterexample :
    (delMarkAdv cexSched false).2.2 = 1 ∧ delCleanupRuns cexSched = false := by
  constructor <;> rfl

/-- C4 (amended): `Delete` re-runs `findPath(item)` after the marking
loop iff the LAST marking CAS it executed succeeded (and not at all when
no CAS was executed); a successful CAS at a higher level followed by a
failed CAS at a lower level does not trigger the re-run. -/
theorem C4_delete_cleanup_amended : ∀ sched : List (Bool × Bool × Bool),
    delCleanupRuns sched = (delMarkResults sched).getLastD false :=
  fun sched => delMarkAdv_flag sched false

/-! ## Claim C6: doCleanup drains the freeq in seqno order -/

/-- C6: on a queue sorted in strictly ascending seqno order whose entries
all have seqno above `freeSeqno` (as the freeq is: seqnos are unique and
a freed session is deleted), `doCleanup` destructs exactly the maximal
contiguous run `freeSeqno+1, …, freeSeqno+k`, in that order, each session
exactly once; it advances `freeSeqno` by `k`, counts `k` frees, leaves the
rest of the queue untouched, and stops exactly at the first session whose
seqno exceeds the new `freeSeqno + 1`. -/
theorem C6_doCleanup_ordered_drain : ∀ (freeSeqno : Nat) (q : List BarrierSession),
    List.Pairwise (fun a b => a.seqno < b.seqno) q →
    (∀ bs ∈ q, freeSeqno < bs.seqno) →
    ∃ k, ((doCleanup freeSeqno q).2.2.1).map (·.seqno) = List.range' (freeSeqno + 1) k ∧
      (doCleanup freeSeqno q).1 = freeSeqno + k ∧
      (doCleanup freeSeqno q).2.2.2 = k ∧
      (doCleanup freeSeqno q).2.1 = q.drop k ∧
      (∀ bs ∈ (doCleanup freeSeqno q).2.1, freeSeqno + k + 1 < bs.seqno) := by
  intro freeSeqno q
  induction q generalizing freeSeqno with
  | nil =>
    intro _ _
    exact ⟨0, by simp [doCleanup]⟩
  | cons bs rest ih =>
    intro hsort hgt
    obtain ⟨hbs, hsort'⟩ := List.pairwise_cons.mp hsort
    by_cases h : bs.seqno = freeSeqno + 1
    · have hgt' : ∀ b ∈ rest, freeSeqno + 1 < b.seqno := fun b hb => h ▸ hbs b hb
      obtain ⟨k, h1, h2, h3, h4, h5⟩ := ih (freeSeqno + 1) hsort' hgt'
      have hstep : doCleanup freeSeqno (bs :: rest) =
          ((doCleanup (freeSeqno + 1) rest).1,
            (doCleanup (freeSeqno + 1) rest).2.1,
            bs :: (doCleanup (freeSeqno + 1) rest).2.2.1,
            (doCleanup (freeSeqno + 1) rest).2.2.2 + 1) := by
        simp only [doCleanup, if_neg (not_not_intro h)]
      refine ⟨k + 1, ?_, ?_, ?_, ?_, ?_⟩
      · rw [hstep]
        simp only [List.map_cons, h1, List.range'_succ, h]
      · rw [hstep, h2]; omega
      · rw [hstep, h3]
      · rw [hstep, h4, List.drop_succ_cons]
      · rw [hstep]
        intro b hb
        have := h5 b hb
        omega
    · have hstop : (doCleanup freeSeqno (bs :: rest)) =
          (freeSeqno, bs :: rest, [], 0) := by
        simp only [doCleanup, if_pos h]
      refine ⟨0, by simp [hstop], by simp [hstop], by simp [hstop],
        by simp [hstop], ?_⟩
      rw [hstop]
      intro b hb
      rcases List.mem_cons.mp hb with hb | hb
      · subst hb
        have := hgt b (List.mem_cons_self _ _)
        omega
      · have h1 := hbs b hb
        have h2 := hgt bs (List.mem_cons_self _ _)
        omega

/-- C6, witness: the queue `freeqEx` with seqnos 1, 2, 4 drains sessions
1 and 2 and stops at the gap before 4. -/
theorem C6_doCleanup_witness :
    ∃ k, ((doCleanup 0 freeqEx).2.2.1).map (·.seqno) = List.range' (0 + 1) k ∧
      (doCleanup 0 freeqEx).1 = 0 + k ∧
      (doCleanup 0 freeqEx).2.2.2 = k ∧
      (doCleanup 0 freeqEx).2.1 = freeqEx.drop k ∧
      (∀ bs ∈ (doCleanup 0 freeqEx).2.1, 0 + k + 1 < bs.seqno) :=
  C6_doCleanup_ordered_drain 0 freeqEx (by decide) (by decide)

/-! ## Claim C1: Delete's return value -/

/-- C1, counterexample: the Go `Delete` declares no results, so its
return value is the unit value.  Two concrete runs — one where `findPath`
does not find the item (fresh list), one where it does (`sl5`) — have the
same (unit) return value, so no boolean reporting found-ness is returned;
in particular `Delete` does not "return false when no equal item is
found". -/
theorem C1_delete_return_counterexample :
    (findPath 5 newSL (.val 5)).map (fun r => r.2.2.2) = some false ∧
    (findPath 9 sl5 (.val 5)).map (fun r => r.2.2.2) = some true ∧
    deleteReturn 5 newSL 5 = deleteReturn 9 sl5 5 := by
  refine ⟨by rfl, by rfl, rfl⟩

/-! ## Skiplist heap basics -/

theorem length_setSlot (st : SL) (n i p : Nat) (d : Bool) :
    (setSlot st n i p d).nodes.length = st.nodes.length := by
  simp [setSlot]

theorem slevel_setSlot (st : SL) (n i p : Nat) (d : Bool) :
    (setSlot st n i p d).slevel = st.slevel := rfl

theorem getNode_setSlot_ne (st : SL) (n i p : Nat) (d : Bool) (m : Nat)
    (h : m ≠ n) : getNode (setSlot st n i p d) m = getNode st m := by
  unfold getNode setSlot
  simp only [List.getD_eq_getElem?_getD, List.getElem?_set_ne (Ne.symm h)]

theorem getNode_setSlot_self (st : SL) (n i p : Nat) (d : Bool)
    (hn : n < st.nodes.length) :
    getNode (setSlot st n i p d) n =
      { getNode st n with next := (getNode st n).next.set i (some (p, d)) } := by
  unfold getNode setSlot
  simp only [List.getD_eq_getElem?_getD, List.getElem?_set_self hn,
    Option.getD_some]
  simp only [getNode, List.getD_eq_getElem?_getD]

/-- `setSlot` either leaves a node untouched or replaces only its `next`
array. -/
theorem getNode_setSlot (st : SL) (n i p : Nat) (d : Bool) (m : Nat) :
    getNode (setSlot st n i p d) m = getNode st m ∨
    (m = n ∧ getNode (setSlot st n i p d) m =
      { getNode st m with next := (getNode st m).next.set i (some (p, d)) }) := by
  by_cases h : m = n
  · subst h
    by_cases hlt : m < st.nodes.length
    · exact Or.inr ⟨rfl, getNode_setSlot_self st m i p d hlt⟩
    · left
      unfold getNode setSlot
      simp only [List.set_eq_of_length_le (Nat.le_of_not_lt hlt)]
  · left; exact getNode_setSlot_ne st n i p d m h

theorem itm_setSlot (st : SL) (n i p : Nat) (d : Bool) (m : Nat) :
    (getNode (setSlot st n i p d) m).itm = (getNode st m).itm := by
  rcases getNode_setSlot st n i p d m with h | ⟨_, h⟩ <;> rw [h]

theorem level_setSlot (st : SL) (n i p : Nat) (d : Bool) (m : Nat) :
    (getNode (setSlot st n i p d) m).level = (getNode st m).level := by
  rcases getNode_setSlot st n i p d m with h | ⟨_, h⟩ <;> rw [h]

theorem getSlot_setSlot_ne (st : SL) (n i p : Nat) (d : Bool) (m j : Nat)
    (h : m ≠ n ∨ j ≠ i) : getSlot (setSlot st n i p d) m j = getSlot st m j := by
  rcases h with h | h
  · unfold getSlot
    rw [getNode_setSlot_ne st n i p d m h]
  · unfold getSlot
    rcases getNode_setSlot st n i p d m with he | ⟨_, he⟩ <;> rw [he]
    simp only [List.getD_eq_getElem?_getD, List.getElem?_set_ne (Ne.symm h)]

theorem getSlot_setSlot_self (st : SL) (n i p : Nat) (d : Bool)
    (hn : n < st.nodes.length) (hi : i < (getNode st n).next.length) :
    getSlot (setSlot st n i p d) n i = some (p, d) := by
  unfold getSlot
  rw [getNode_setSlot_self st n i p d hn]
  simp only [List.getD_eq_getElem?_getD, List.getElem?_set_self hi,
    Option.getD_some]

theorem getNext_congr (st1 st2 : SL) (m j : Nat)
    (h : getSlot st1 m j = getSlot st2 m j) :
    getNext st1 m j = getNext st2 m j := by
  unfold getNext
  rw [h]

/-- `dcasNext` either fails leaving the heap unchanged, or succeeds
overwriting exactly the compared slot. -/
theorem dcasNext_cases (st : SL) (n i : Nat) (pp : Option Nat) (np : Nat)
    (pd nd : Bool) :
    dcasNext st n i pp np pd nd = (st, false) ∨
    (∃ q, getSlot st n i = some (q, pd) ∧ pp = some q ∧
      dcasNext st n i pp np pd nd = (setSlot st n i np nd, true)) := by
  unfold dcasNext
  rcases hs : getSlot st n i with _ | ⟨q, dq⟩
  · left; rfl
  · by_cases hc : some q = pp ∧ dq = pd
    · right
      refine ⟨q, ?_, hc.1.symm, ?_⟩
      · rw [hc.2]
      · show (if some q = pp ∧ dq = pd then (setSlot st n i np nd, true)
              else (st, false)) = (setSlot st n i np nd, true)
        rw [if_pos hc]
    · left
      show (if some q = pp ∧ dq = pd then (setSlot st n i np nd, true)
            else (st, false)) = (st, false)
      rw [if_neg hc]

theorem dcasNext_slot_frame (st : SL) (n i : Nat) (pp : Option Nat) (np : Nat)
    (pd nd : Bool) (m j : Nat) (h : m ≠ n ∨ j ≠ i) :
    getSlot (dcasNext st n i pp np pd nd).1 m j = getSlot st m j := by
  rcases dcasNext_cases st n i pp np pd nd with hc | ⟨q, _, _, hc⟩ <;> rw [hc]
  exact getSlot_setSlot_ne st n i np nd m j h

theorem dcasNext_itm (st : SL) (n i : Nat) (pp : Option Nat) (np : Nat)
    (pd nd : Bool) (m : Nat) :
    (getNode (dcasNext st n i pp np pd nd).1 m).itm = (getNode st m).itm := by
  rcases dcasNext_cases st n i pp np pd nd with hc | ⟨q, _, _, hc⟩ <;> rw [hc]
  exact itm_setSlot st n i np nd m

theorem dcasNext_level (st : SL) (n i : Nat) (pp : Option Nat) (np : Nat)
    (pd nd : Bool) (m : Nat) :
    (getNode (dcasNext st n i pp np pd nd).1 m).level =
      (getNode st m).level := by
  rcases dcasNext_cases st n i pp np pd nd with hc | ⟨q, _, _, hc⟩ <;> rw [hc]
  exact level_setSlot st n i np nd m

theorem dcasNext_length (st : SL) (n i : Nat) (pp : Option Nat) (np : Nat)
    (pd nd : Bool) :
    (dcasNext st n i pp np pd nd).1.nodes.length = st.nodes.length := by
  rcases dcasNext_cases st n i pp np pd nd with hc | ⟨q, _, _, hc⟩ <;> rw [hc]
  exact length_setSlot st n i np nd

theorem dcasNext_slevel (st : SL) (n i : Nat) (pp : Option Nat) (np : Nat)
    (pd nd : Bool) :
    (dcasNext st n i pp np pd nd).1.slevel = st.slevel := by
  rcases dcasNext_cases st n i pp np pd nd with hc | ⟨q, _, _, hc⟩ <;> rw [hc]
  rfl

/-! ## Delete's marking loop -/

/-- The inner marking loop changes only the mutated slot, and no item,
level, heap size or top level. -/
theorem markInner_frame : ∀ (fuel : Nat) (st : SL) (node i : Nat) (dm : Bool)
    (st1 : SL) (dm1 : Bool), markInner fuel st node i dm = some (st1, dm1) →
    (∀ m j, m ≠ node ∨ j ≠ i → getSlot st1 m j = getSlot st m j) ∧
    (∀ m, (getNode st1 m).itm = (getNode st m).itm) ∧
    (∀ m, (getNode st1 m).level = (getNode st m).level) ∧
    st1.nodes.length = st.nodes.length ∧ st1.slevel = st.slevel := by
  intro fuel
  induction fuel with
  | zero =>
    intro st node i dm st1 dm1 h
    unfold markInner at h
    rcases hg : getNext st node i with ⟨nxtO, del⟩
    rw [hg] at h
    cases nxtO <;> cases del
    · cases h
    · injection h with h2
      injection h2 with h3 h4
      subst h3
      exact ⟨fun _ _ _ => rfl, fun _ => rfl, fun _ => rfl, rfl, rfl⟩
    · cases h
    · injection h with h2
      injection h2 with h3 h4
      subst h3
      exact ⟨fun _ _ _ => rfl, fun _ => rfl, fun _ => rfl, rfl, rfl⟩
  | succ f ih =>
    intro st node i dm st1 dm1 h
    unfold markInner at h
    rcases hg : getNext st node i with ⟨nxtO, del⟩
    rw [hg] at h
    cases nxtO with
    | none =>
      cases del
      · exact ih st node i false st1 dm1 h
      · injection h with h2
        injection h2 with h3 h4
        subst h3
        exact ⟨fun _ _ _ => rfl, fun _ => rfl, fun _ => rfl, rfl, rfl⟩
    | some nxt =>
      cases del
      case true =>
        injection h with h2
        injection h2 with h3 h4
        subst h3
        exact ⟨fun _ _ _ => rfl, fun _ => rfl, fun _ => rfl, rfl, rfl⟩
      case false =>
        rcases hd : dcasNext st node i (some nxt) nxt false true with ⟨stA, ok⟩
        have h' : (match dcasNext st node i (some nxt) nxt false true with
            | (s, ok) => markInner f s node i ok) = some (st1, dm1) := h
        rw [hd] at h'
        obtain ⟨hf, hitm, hlvl, hlen, hslev⟩ := ih _ _ _ _ _ _ h'
        have hd1 : stA = (dcasNext st node i (some nxt) nxt false true).1 := by
          rw [hd]
        refine ⟨?_, ?_, ?_, ?_, ?_⟩
        · intro m j hmj
          rw [hf m j hmj, hd1, dcasNext_slot_frame st node i (some nxt) nxt
            false true m j hmj]
        · intro m; rw [hitm m, hd1, dcasNext_itm]
        · intro m; rw [hlvl m, hd1, dcasNext_level]
        · rw [hlen, hd1, dcasNext_length]
        · rw [hslev, hd1, dcasNext_slevel]

/-- When the inner marking loop terminates, the edge it worked on is
marked. -/
theorem markInner_marks : ∀ (fuel : Nat) (st : SL) (node i : Nat) (dm : Bool)
    (st1 : SL) (dm1 : Bool), markInner fuel st node i dm = some (st1, dm1) →
    (getNext st1 node i).2 = true := by
  intro fuel
  induction fuel with
  | zero =>
    intro st node i dm st1 dm1 h
    unfold markInner at h
    rcases hg : getNext st node i with ⟨nxtO, del⟩
    rw [hg] at h
    cases nxtO <;> cases del
    · cases h
    · injection h with h2
      injection h2 with h3 h4
      subst h3
      rw [hg]
    · cases h
    · injection h with h2
      injection h2 with h3 h4
      subst h3
      rw [hg]
  | succ f ih =>
    intro st node i dm st1 dm1 h
    unfold markInner at h
    rcases hg : getNext st node i with ⟨nxtO, del⟩
    rw [hg] at h
    cases nxtO with
    | none =>
      cases del
      · exact ih _ _ _ _ _ _ h
      · injection h with h2
        injection h2 with h3 h4
        subst h3
        rw [hg]
    | some nxt =>
      cases del
      · exact ih _ _ _ _ _ _ h
      · injection h with h2
        injection h2 with h3 h4
        subst h3
        rw [hg]

/-- The marking loop of `Delete` marks every level up to the starting
one, mutates only the target node's slots at those levels, and changes
no item, level, heap size or top level. -/
theorem markLevels_spec : ∀ (i : Nat) (st : SL) (node fuel : Nat) (dm : Bool)
    (st1 : SL) (dm1 : Bool), markLevels st node i fuel dm = some (st1, dm1) →
    (∀ j, j ≤ i → (getNext st1 node j).2 = true) ∧
    (∀ m j, m ≠ node ∨ i < j → getSlot st1 m j = getSlot st m j) ∧
    (∀ m, (getNode st1 m).itm = (getNode st m).itm) ∧
    (∀ m, (getNode st1 m).level = (getNode st m).level) ∧
    st1.nodes.length = st.nodes.length ∧ st1.slevel = st.slevel := by
  intro i
  induction i with
  | zero =>
    intro st node fuel dm st1 dm1 h
    unfold markLevels at h
    rcases hm : markInner fuel st node 0 dm with _ | ⟨rst, rdm⟩
    · rw [hm] at h; cases h
    · rw [hm] at h
      injection h with h2
      injection h2 with h3 h4
      subst h3
      subst h4
      obtain ⟨hf, hitm, hlvl, hlen, hslev⟩ :=
        markInner_frame fuel st node 0 dm _ _ hm
      refine ⟨?_, ?_, hitm, hlvl, hlen, hslev⟩
      · intro j hj
        have : j = 0 := Nat.le_zero.mp hj
        subst this
        exact markInner_marks fuel st node 0 dm _ _ hm
      · intro m j hmj
        apply hf
        rcases hmj with h | h
        · exact Or.inl h
        · exact Or.inr (by omega)
  | succ i' ihi =>
    intro st node fuel dm st1 dm1 h
    unfold markLevels at h
    rcases hm : markInner fuel st node (i' + 1) dm with _ | ⟨rst, rdm⟩
    · rw [hm] at h; cases h
    · rw [hm] at h
      have h' : markLevels rst node i' fuel rdm = some (st1, dm1) := h
      obtain ⟨hmark', hf', hitm', hlvl', hlen', hslev'⟩ :=
        ihi rst node fuel rdm st1 dm1 h'
      obtain ⟨hf, hitm, hlvl, hlen, hslev⟩ :=
        markInner_frame fuel st node (i' + 1) dm rst rdm hm
      refine ⟨?_, ?_, ?_, ?_, ?_, ?_⟩
      · intro j hj
        by_cases hj' : j ≤ i'
        · exact hmark' j hj'
        · have hje : j = i' + 1 := by omega
          subst hje
          have h1 : (getNext rst node (i' + 1)).2 = true :=
            markInner_marks fuel st node (i' + 1) dm rst rdm hm
          have h2 : getSlot st1 node (i' + 1) = getSlot rst node (i' + 1) :=
            hf' node (i' + 1) (Or.inr (by omega))
          rw [getNext_congr st1 rst node (i' + 1) h2]
          exact h1
      · intro m j hmj
        have e1 : getSlot st1 m j = getSlot rst m j := by
          apply hf'
          rcases hmj with h | h
          · exact Or.inl h
          · exact Or.inr (by omega)
        have e2 : getSlot rst m j = getSlot st m j := by
          apply hf
          rcases hmj with h | h
          · exact Or.inl h
          · exact Or.inr (by omega)
        rw [e1, e2]
      · intro m; rw [hitm' m, hitm m]
      · intro m; rw [hlvl' m, hlvl m]
      · rw [hlen', hlen]
      · rw [hslev', hslev]

/-- C1 (amended): `Delete(item)` returns no value.  What `findPath`'s
found flag decides is only the behaviour: when no equal item is found,
`Delete` returns right after `findPath` without marking anything; when a
node is found, all of its outgoing edges (level 0 up to its level) are
marked — even those already marked — and the cleanup `findPath` re-runs
exactly when the final `deleteMarked` flag is true. -/
theorem C1_delete_found_behavior : ∀ (fuel : Nat) (st : SL) (v : Int),
    ((findPath fuel st (.val v)).map (fun r => r.2.2.2) = some false →
      deleteOp fuel st v = (findPath fuel st (.val v)).map (fun r => r.1)) ∧
    (∀ st1 preds succs d,
      findPath fuel st (.val v) = some (st1, preds, succs, true) →
      succs.getD 0 none = some d →
      ∀ st2 dm,
        markLevels st1 d (getNode st1 d).level fuel false = some (st2, dm) →
        (∀ i, i ≤ (getNode st1 d).level → (getNext st2 d i).2 = true) ∧
        deleteOp fuel st v =
          (if dm then (findPath fuel st2 (.val v)).map (fun r => r.1)
           else some st2)) := by
  intro fuel st v
  constructor
  · intro h
    rcases hf : findPath fuel st (.val v) with _ | ⟨st1, preds, succs, found⟩
    · rw [hf] at h; cases h
    · rw [hf] at h
      simp only [Option.map_some'] at h
      injection h with h2
      subst h2
      unfold deleteOp
      rw [hf]
      rfl
  · intro st1 preds succs d hf hd st2 dm hm
    refine ⟨(markLevels_spec (getNode st1 d).level st1 d fuel false st2 dm hm).1,
      ?_⟩
    unfold deleteOp
    rw [hf]
    simp only [hd, hm, if_true]

/-! ## Item order facts -/

theorem Itm.le_trans : ∀ {a b c : Itm}, Itm.le a b → Itm.le b c → Itm.le a c := by
  intro a b c hab hbc
  cases a <;> cases b <;> cases c <;>
    simp_all [Itm.le] <;> omega

theorem Itm.le_of_cmp_lt_val {a : Itm} {v : Int} (h : a.cmp (.val v) < 0) :
    Itm.le a (.val v) := by
  cases a <;> simp_all [Itm.cmp, Itm.le] <;> split_ifs at h <;> omega

theorem Itm.le_val_of_cmp_ge {b : Itm} {v : Int} (h : ¬ b.cmp (.val v) < 0) :
    Itm.le (.val v) b := by
  cases b <;> simp_all [Itm.cmp, Itm.le]
  split_ifs at h <;> omega

theorem Itm.cmp_minI (b : Itm) : Itm.cmp .minI b = -1 := rfl

/-! ## Evolution relation -/

theorem evo_refl (st : SL) : Evo st st :=
  ⟨rfl, rfl, fun _ => rfl, fun _ => rfl, fun _ => rfl, id, fun _ => id⟩

theorem evo_trans {a b c : SL} (h1 : Evo a b) (h2 : Evo b c) : Evo a c := by
  obtain ⟨l1, s1, i1, v1, n1, inv1, p1⟩ := h1
  obtain ⟨l2, s2, i2, v2, n2, inv2, p2⟩ := h2
  exact ⟨l2.trans l1, s2.trans s1, fun a => (i2 a).trans (i1 a),
    fun a => (v2 a).trans (v1 a), fun a => (n2 a).trans (n1 a),
    fun h => inv2 (inv1 h), fun x hx => p2 x (p1 x hx)⟩

/-! ## Slot updates, complete characterisation -/

theorem setSlot_out (st : SL) (n i p : Nat) (d : Bool)
    (hn : st.nodes.length ≤ n) : setSlot st n i p d = st := by
  simp only [setSlot, List.set_eq_of_length_le hn]

theorem getSlot_setSlot (st : SL) (n i p : Nat) (d : Bool) (m j : Nat) :
    getSlot (setSlot st n i p d) m j = getSlot st m j ∨
    (m = n ∧ j = i ∧ getSlot (setSlot st n i p d) m j = some (p, d)) := by
  by_cases hm : m = n
  · subst hm
    by_cases hj : j = i
    · subst hj
      by_cases hn : m < st.nodes.length
      · by_cases hi : j < (getNode st m).next.length
        · exact Or.inr ⟨rfl, rfl, getSlot_setSlot_self st m j p d hn hi⟩
        · left
          unfold getSlot
          rw [getNode_setSlot_self st m j p d hn]
          simp only [List.set_eq_of_length_le (Nat.le_of_not_lt hi)]
      · left
        rw [setSlot_out st m j p d (Nat.le_of_not_lt hn)]
    · exact Or.inl (getSlot_setSlot_ne _ _ _ _ _ _ _ (Or.inr hj))
  · exact Or.inl (getSlot_setSlot_ne _ _ _ _ _ _ _ (Or.inl hm))

theorem getNext_eq_some (st : SL) (n i q : Nat) (d : Bool) :
    getNext st n i = (some q, d) ↔ getSlot st n i = some (q, d) := by
  unfold getNext
  rcases hs : getSlot st n i with _ | ⟨p, dp⟩
  · constructor
    · intro h; injection h with h1 h2; cases h1
    · intro h; cases h
  · constructor
    · intro h
      injection h with h1 h2
      injection h1 with h1
      rw [h1, h2]
    · intro h
      injection h with h
      injection h with h1 h2
      rw [h1, h2]

theorem getNext_fst_some (st : SL) (n i q : Nat)
    (h : (getNext st n i).1 = some q) : ∃ d, getSlot st n i = some (q, d) := by
  unfold getNext at h
  rcases hs : getSlot st n i with _ | ⟨p, dp⟩ <;> rw [hs] at h
  · cases h
  · injection h with h
    exact ⟨dp, by rw [h]⟩

theorem getSlot_some_isSlot (st : SL) (n i : Nat) (x : Nat × Bool)
    (h : getSlot st n i = some x) : i < (getNode st n).next.length := by
  by_contra hcon
  unfold getSlot at h
  rw [List.getD_eq_getElem?_getD, List.getElem?_eq_none (Nat.le_of_not_lt hcon)]
    at h
  cases h

/-- Storing a bounded pointer keeps all pointers bounded. -/
theorem ptrs_setSlot (st : SL) (n i p : Nat) (d : Bool)
    (hp : p < st.nodes.length)
    (hptrs : ∀ m j q d', getSlot st m j = some (q, d') → q < st.nodes.length) :
    ∀ m j q d', getSlot (setSlot st n i p d) m j = some (q, d') →
      q < (setSlot st n i p d).nodes.length := by
  intro m j q d' hq
  rw [length_setSlot]
  rcases getSlot_setSlot st n i p d m j with he | ⟨_, _, he⟩ <;> rw [he] at hq
  · exact hptrs m j q d' hq
  · injection hq with hq
    injection hq with h1 _
    rw [← h1]
    exact hp

/-- Storing a pointer different from `x` keeps `x` unreachable. -/
theorem noPtrTo_setSlot (st : SL) (n i p : Nat) (d : Bool) (x : Nat)
    (hpx : p ≠ x) (hx : NoPtrTo st x) : NoPtrTo (setSlot st n i p d) x := by
  intro m j q d' hq
  rcases getSlot_setSlot st n i p d m j with he | ⟨_, _, he⟩ <;> rw [he] at hq
  · exact hx m j q d' hq
  · injection hq with hq
    injection hq with h1 _
    rw [← h1]
    exact hpx

/-! ## Chain facts -/

theorem chain'_congr_mem {R S : Nat → Nat → Prop} :
    ∀ l : List Nat, (∀ a ∈ l, ∀ b ∈ l, R a b → S a b) → l.Chain' R →
      l.Chain' S := by
  intro l
  induction l with
  | nil => intro _ _; exact List.chain'_nil
  | cons a t ih =>
    intro h hc
    cases t with
    | nil => simp
    | cons b t' =>
      rw [List.chain'_cons] at hc ⊢
      refine ⟨h a (by simp) b (by simp) hc.1, ih ?_ hc.2⟩
      intro x hx y hy hr
      exact h x (by simp [hx]) y (by simp [hy]) hr

/-- `ChainOk` depends only on the level-0 pointers and the items of the
chain's members, and monotonically on the heap size. -/
theorem chainOk_congr (st st' : SL) (l : List Nat)
    (hlen : st.nodes.length ≤ st'.nodes.length)
    (hptr : ∀ a ∈ l, (getNext st' a 0).1 = (getNext st a 0).1)
    (hitm : ∀ a ∈ l, (getNode st' a).itm = (getNode st a).itm)
    (h : ChainOk st l) : ChainOk st' l := by
  refine ⟨h.headIs, h.lastIs, h.nodup,
    fun n hn => lt_of_lt_of_le (h.bounded n hn) hlen, ?_, ?_⟩
  · exact chain'_congr_mem l (fun a ha b _ hr => by rw [hptr a ha]; exact hr)
      h.adj
  · rw [List.map_congr_left hitm]
    exact h.sorted

/-- Every element of a chain is its head or is pointed to by a member. -/
theorem chain'_mem_pred {R : Nat → Nat → Prop} :
    ∀ (l : List Nat) (x : Nat), l.Chain' R → x ∈ l →
      l.head? = some x ∨ ∃ a ∈ l, R a x := by
  intro l
  induction l with
  | nil => intro x _ hx; cases hx
  | cons a t ih =>
    intro x hc hx
    rcases List.mem_cons.mp hx with hx | hx
    · subst hx
      exact Or.inl rfl
    · cases t with
      | nil => cases hx
      | cons b t' =>
        obtain ⟨hab, hc'⟩ := List.chain'_cons.mp hc
        rcases ih x hc' hx with hh | ⟨c, hcmem, hr⟩
        · injection hh with hh
          subst hh
          exact Or.inr ⟨a, by simp, hab⟩
        · exact Or.inr ⟨c, by simp [hcmem], hr⟩

/-- An unreachable node other than the head is not on the chain. -/
theorem not_mem_chain (st : SL) (l : List Nat) (x : Nat)
    (h : ChainOk st l) (hx : NoPtrTo st x) (hx0 : x ≠ 0) : x ∉ l := by
  intro hmem
  rcases chain'_mem_pred l x h.adj hmem with hh | ⟨a, _, hr⟩
  · rw [h.headIs] at hh
    injection hh with hh
    exact hx0 hh.symm
  · obtain ⟨d, hd⟩ := getNext_fst_some st a 0 x hr
    exact hx a 0 x d hd rfl

/-- A chain is what `chainFrom` computes, given enough fuel. -/
theorem chainFrom_of_chain : ∀ (l : List Nat) (st : SL) (n fuel : Nat),
    l.head? = some n → l.getLast? = some 1 → l.Nodup →
    l.Chain' (fun a b => (getNext st a 0).1 = some b) →
    l.length ≤ fuel → chainFrom st fuel n = some l := by
  intro l
  induction l with
  | nil => intro st n fuel hh _ _ _ _; cases hh
  | cons a t ih =>
    intro st n fuel hh hl hnd hc hlen
    injection hh with hh
    subst hh
    cases fuel with
    | zero => simp at hlen
    | succ f =>
      by_cases ha : a = 1
      · subst ha
        cases t with
        | nil =>
          unfold chainFrom
          rw [if_pos rfl]
        | cons b t' =>
          exfalso
          rw [List.getLast?_cons_cons] at hl
          exact (List.nodup_cons.mp hnd).1 (List.mem_of_getLast?_eq_some hl)
      · cases t with
        | nil =>
          exfalso
          exact ha (by
            simp only [List.getLast?_singleton] at hl
            injection hl)
        | cons b t' =>
          have hr : (getNext st a 0).1 = some b := (List.chain'_cons.mp hc).1
          have hrec : chainFrom st f b = some (b :: t') := by
            apply ih st b f rfl
            · rw [List.getLast?_cons_cons] at hl
              exact hl
            · exact (List.nodup_cons.mp hnd).2
            · exact (List.chain'_cons.mp hc).2
            · simp only [List.length_cons] at hlen ⊢
              omega
          unfold chainFrom
          rw [if_neg ha, hr]
          show Option.map (fun x => a :: x) (chainFrom st f b) =
            some (a :: b :: t')
          rw [hrec]
          rfl

/-- The invariant's chain is computed by `chainOf`. -/
theorem chainOk_compute (st : SL) (l : List Nat) (h : ChainOk st l) :
    chainOf st = some l := by
  have hlen : l.length ≤ st.nodes.length := by
    have hsub : l ⊆ List.range st.nodes.length := fun a ha =>
      List.mem_range.mpr (h.bounded a ha)
    have := (List.subperm_of_subset h.nodup hsub).length_le
    simpa using this
  exact chainFrom_of_chain l st 0 (st.nodes.length + 1) h.headIs h.lastIs
    h.nodup h.adj (by omega)

/-! ## Chain surgery -/

/-- If a node with a level-0 slot pointing at `c` lies on the chain, the
chain passes through `p` followed immediately by `c`. -/
theorem chain_decomp (st : SL) (l : List Nat) (p c : Nat)
    (h : ChainOk st l)
    (hp : getSlot st p 0 = some (c, false))
    (htail : getSlot st 1 0 = none)
    (hmem : p ∈ l) :
    ∃ s t, l = s ++ p :: c :: t ∧ p ∉ s ∧ p ∉ c :: t ∧ p ≠ 1 := by
  have hp1 : p ≠ 1 := by
    intro he
    rw [he, htail] at hp
    cases hp
  obtain ⟨s, t0, hl⟩ := List.append_of_mem hmem
  cases t0 with
  | nil =>
    exfalso
    have := h.lastIs
    rw [hl, List.getLast?_append_cons] at this
    simp only [List.getLast?_singleton] at this
    injection this with this
    exact hp1 this
  | cons c0 t =>
    have hadj := h.adj
    rw [hl] at hadj
    obtain ⟨_, hright, _⟩ := List.chain'_append.mp hadj
    have hpc0 : (getNext st p 0).1 = some c0 := (List.chain'_cons.mp hright).1
    have : getNext st p 0 = (some c, false) := by
      unfold getNext
      rw [hp]
    rw [this] at hpc0
    injection hpc0 with hpc0
    subst hpc0
    have hnd := h.nodup
    rw [hl] at hnd
    obtain ⟨_, nrest, disj⟩ := List.nodup_append.mp hnd
    exact ⟨s, t, hl, fun hps => disj hps (List.mem_cons_self _ _),
      (List.nodup_cons.mp nrest).1, hp1⟩

/-- Splicing a marked node out of the chain (`helpDelete`'s successful
CAS at level 0) yields a chain again, and a sublist of the old one. -/
theorem chainOk_remove (st : SL) (p c n' : Nat)
    (hp : getSlot st p 0 = some (c, false))
    (hcn : (getNext st c 0).1 = some n')
    (htail : getSlot st 1 0 = none)
    (l : List Nat) (h : ChainOk st l) :
    ∃ l', ChainOk (setSlot st p 0 n' false) l' ∧ List.Sublist l' l := by
  by_cases hmem : p ∈ l
  · obtain ⟨s, t0, hl, hps, hpct, hp1⟩ := chain_decomp st l p c h hp htail hmem
    have hc1 : c ≠ 1 := by
      intro he
      obtain ⟨d, hd⟩ := getNext_fst_some st c 0 n' hcn
      rw [he, htail] at hd
      cases hd
    cases t0 with
    | nil =>
      exfalso
      have := h.lastIs
      rw [hl] at this
      rw [List.getLast?_append_cons] at this
      simp only [List.getLast?_cons_cons, List.getLast?_singleton] at this
      injection this with this
      exact hc1 this
    | cons n0 t =>
      have hadj := h.adj
      rw [hl] at hadj
      obtain ⟨hchs, hright, hlink⟩ := List.chain'_append.mp hadj
      have hcn0 : (getNext st c 0).1 = some n0 :=
        (List.chain'_cons.mp (List.chain'_cons.mp hright).2).1
      rw [hcn] at hcn0
      injection hcn0 with hcn0
      subst hcn0
      have hpb : p < st.nodes.length := h.bounded p hmem
      have hp0 : 0 < (getNode st p).next.length := getSlot_some_isSlot st p 0 _ hp
      have hslot' : getSlot (setSlot st p 0 n' false) p 0 = some (n', false) :=
        getSlot_setSlot_self st p 0 n' false hpb hp0
      have hpn : p ∉ n' :: t := fun hx =>
        hpct (List.mem_cons_of_mem c hx)
      refine ⟨s ++ p :: n' :: t, ?_, ?_⟩
      · have hsub : List.Sublist (s ++ p :: n' :: t) l := by
          rw [hl]
          exact (List.Sublist.append_left
            ((List.sublist_cons_self c (n' :: t)).cons₂ p) s)
        have hitm : ∀ a, (getNode (setSlot st p 0 n' false) a).itm =
            (getNode st a).itm := itm_setSlot st p 0 n' false
        have hne : ∀ a, a ≠ p →
            getNext (setSlot st p 0 n' false) a 0 = getNext st a 0 := fun a ha =>
          getNext_congr _ _ _ _ (getSlot_setSlot_ne st p 0 n' false a 0 (Or.inl ha))
        refine ⟨?_, ?_, ?_, ?_, ?_, ?_⟩
        · have := h.headIs
          rw [hl] at this
          cases s with
          | nil => simpa using this
          | cons s0 s1 => simpa using this
        · have := h.lastIs
          rw [hl] at this
          rw [List.getLast?_append_cons] at this
          simp only [List.getLast?_cons_cons] at this
          rw [List.getLast?_append_cons]
          simp only [List.getLast?_cons_cons]
          exact this
        · exact h.nodup.sublist hsub
        · intro a ha
          rw [length_setSlot]
          exact h.bounded a (hsub.subset ha)
        · rw [List.chain'_append]
          refine ⟨?_, ?_, ?_⟩
          · refine chain'_congr_mem s (fun a ha b _ hr => ?_) hchs
            rw [hne a (fun he => hps (he ▸ ha))]
            exact hr
          · rw [List.chain'_cons]
            constructor
            · show (getNext (setSlot st p 0 n' false) p 0).1 = some n'
              unfold getNext
              rw [hslot']
            · have hctail : List.Chain'
                  (fun a b => (getNext st a 0).1 = some b) (n' :: t) :=
                (List.chain'_cons.mp (List.chain'_cons.mp hright).2).2
              refine chain'_congr_mem (n' :: t) (fun a ha b _ hr => ?_) hctail
              rw [hne a (fun he => hpn (he ▸ ha))]
              exact hr
          · intro x hx y hy
            have hyp : y = p := by
              simp only [List.head?_cons, Option.mem_def] at hy
              injection hy with hy
              exact hy.symm
            subst hyp
            have hxs : x ∈ s := by
              rcases s with _ | ⟨s0, s1⟩
              · simp at hx
              · exact List.mem_of_getLast?_eq_some hx
            have := hlink x hx y (by simp)
            rw [hne x (fun he => hps (he ▸ hxs))]
            simpa using this
        · have hmap : (s ++ p :: n' :: t).map
              (fun n => (getNode (setSlot st p 0 n' false) n).itm) =
              (s ++ p :: n' :: t).map (fun n => (getNode st n).itm) :=
            List.map_congr_left (fun a _ => itm_setSlot st p 0 n' false a)
          rw [hmap]
          exact h.sorted.sublist (hsub.map _)
      · rw [hl]
        exact (List.Sublist.append_left
          ((List.sublist_cons_self c (n' :: t)).cons₂ p) s)
  · refine ⟨l, ?_, List.Sublist.refl l⟩
    refine chainOk_congr st _ l (by rw [length_setSlot]) ?_ ?_ h
    · intro a ha
      rw [getNext_congr _ st a 0
        (getSlot_setSlot_ne st p 0 n' false a 0 (Or.inl (fun he => hmem (he ▸ ha))))]
    · intro a _
      exact itm_setSlot st p 0 n' false a

/-- Splicing a fresh node `x` into the chain after `p` (the level-0
linking CAS of `Insert2`) yields a chain again: `x`'s item sits between
its neighbours' items and `x` was unreachable before. -/
theorem chainOk_insert (st : SL) (p c x : Nat)
    (hp : getSlot st p 0 = some (c, false))
    (hx : (getNext st x 0).1 = some c)
    (hxp : Itm.le (getNode st p).itm (getNode st x).itm)
    (hxc : Itm.le (getNode st x).itm (getNode st c).itm)
    (hxb : x < st.nodes.length)
    (htail : getSlot st 1 0 = none)
    (l : List Nat) (h : ChainOk st l) (hxl : x ∉ l) :
    ∃ l', ChainOk (setSlot st p 0 x false) l' := by
  by_cases hmem : p ∈ l
  · obtain ⟨s, t, hl, hps, hpct, hp1⟩ := chain_decomp st l p c h hp htail hmem
    have hxp' : x ≠ p := fun he => hxl (he ▸ hmem)
    have hpb : p < st.nodes.length := h.bounded p hmem
    have hp0 : 0 < (getNode st p).next.length := getSlot_some_isSlot st p 0 _ hp
    have hslot' : getSlot (setSlot st p 0 x false) p 0 = some (x, false) :=
      getSlot_setSlot_self st p 0 x false hpb hp0
    have hne : ∀ a, a ≠ p →
        getNext (setSlot st p 0 x false) a 0 = getNext st a 0 := fun a ha =>
      getNext_congr _ _ _ _ (getSlot_setSlot_ne st p 0 x false a 0 (Or.inl ha))
    have hxs : x ∉ s := fun hmemx => hxl (hl ▸ List.mem_append_left _ hmemx)
    have hxct : x ∉ c :: t := fun hmemx =>
      hxl (hl ▸ List.mem_append_right _ (List.mem_cons_of_mem p hmemx))
    have hperm : List.Perm (s ++ p :: x :: c :: t) (x :: (s ++ p :: c :: t)) := by
      have := @List.perm_middle Nat x (s ++ [p]) (c :: t)
      simpa using this
    have hadj := h.adj
    rw [hl] at hadj
    obtain ⟨hchs, hright, hlink⟩ := List.chain'_append.mp hadj
    refine ⟨s ++ p :: x :: c :: t, ?_, ?_, ?_, ?_, ?_, ?_⟩
    · have := h.headIs
      rw [hl] at this
      cases s with
      | nil => simpa using this
      | cons s0 s1 => simpa using this
    · have := h.lastIs
      rw [hl, List.getLast?_append_cons, List.getLast?_cons_cons] at this
      rw [List.getLast?_append_cons, List.getLast?_cons_cons,
        List.getLast?_cons_cons]
      exact this
    · refine hperm.nodup_iff.mpr (List.nodup_cons.mpr ⟨?_, ?_⟩)
      · rw [← hl]; exact hxl
      · rw [← hl]; exact h.nodup
    · intro a ha
      rw [length_setSlot]
      rcases List.mem_cons.mp (hperm.mem_iff.mp ha) with he | he
      · exact he ▸ hxb
      · exact h.bounded a (hl ▸ he)
    · rw [List.chain'_append]
      refine ⟨?_, ?_, ?_⟩
      · refine chain'_congr_mem s (fun a ha b _ hr => ?_) hchs
        rw [hne a (fun he => hps (he ▸ ha))]
        exact hr
      · rw [List.chain'_cons]
        constructor
        · show (getNext (setSlot st p 0 x false) p 0).1 = some x
          unfold getNext
          rw [hslot']
        · rw [List.chain'_cons]
          constructor
          · rw [hne x hxp']
            exact hx
          · have hct : List.Chain'
                (fun a b => (getNext st a 0).1 = some b) (c :: t) :=
              (List.chain'_cons.mp hright).2
            refine chain'_congr_mem (c :: t) (fun a ha b _ hr => ?_) hct
            rw [hne a (fun he => hpct (he ▸ ha))]
            exact hr
      · intro y hy z hz
        have hzp : z = p := by
          simp only [List.head?_cons, Option.mem_def] at hz
          injection hz with hz
          exact hz.symm
        subst hzp
        have hys : y ∈ s := by
          rcases s with _ | ⟨s0, s1⟩
          · simp at hy
          · exact List.mem_of_getLast?_eq_some hy
        have := hlink y hy z (by simp)
        rw [hne y (fun he => hps (he ▸ hys))]
        simpa using this
    · have hmap : (s ++ p :: x :: c :: t).map
          (fun n => (getNode (setSlot st p 0 x false) n).itm) =
          (s ++ p :: x :: c :: t).map (fun n => (getNode st n).itm) :=
        List.map_congr_left (fun a _ => itm_setSlot st p 0 x false a)
      rw [hmap]
      rw [List.pairwise_map]
      have hsort : List.Pairwise
          (fun a b => Itm.le (getNode st a).itm (getNode st b).itm) l :=
        List.pairwise_map.mp h.sorted
      rw [hl] at hsort
      obtain ⟨Ps, Prest, cross⟩ := List.pairwise_append.mp hsort
      obtain ⟨hp_all, Pct⟩ := List.pairwise_cons.mp Prest
      refine List.pairwise_append.mpr ⟨Ps, ?_, ?_⟩
      · refine List.pairwise_cons.mpr ⟨?_, ?_⟩
        · intro b hb
          rcases List.mem_cons.mp hb with he | hb
          · exact he ▸ hxp
          · exact hp_all b hb
        · refine List.pairwise_cons.mpr ⟨?_, Pct⟩
          intro b hb
          rcases List.mem_cons.mp hb with he | hb
          · exact he ▸ hxc
          · exact Itm.le_trans hxc ((List.pairwise_cons.mp Pct).1 b hb)
      · intro a ha b hb
        rcases List.mem_cons.mp hb with he | hb
        · exact he ▸ cross a ha p (by simp)
        rcases List.mem_cons.mp hb with he | hb
        · exact he ▸ Itm.le_trans (cross a ha p (by simp)) hxp
        · exact cross a ha b (by simp [hb])
  · refine ⟨l, ?_⟩
    refine chainOk_congr st _ l (by rw [length_setSlot]) ?_ ?_ h
    · intro a ha
      rw [getNext_congr _ st a 0
        (getSlot_setSlot_ne st p 0 x false a 0 (Or.inl (fun he => hmem (he ▸ ha))))]
    · intro a _
      exact itm_setSlot st p 0 x false a

/-! ## Invariant preservation by the primitive mutations -/

theorem nextLen_setSlot (st : SL) (n i p : Nat) (d : Bool) (m : Nat) :
    (getNode (setSlot st n i p d) m).next.length =
      (getNode st m).next.length := by
  rcases getNode_setSlot st n i p d m with h | ⟨_, h⟩ <;> rw [h]
  simp

theorem predsOk_evo (st st1 : SL) (itm : Itm) (ps : List (Option Nat))
    (he : Evo st st1) (h : PredsOk st itm ps) : PredsOk st1 itm ps := by
  intro i pi hpi
  obtain ⟨hlen, _, hitm, _⟩ := he
  rw [hlen, hitm]
  exact h i pi hpi

theorem succsOk_evo (st st1 : SL) (itm : Itm) (ss : List (Option Nat))
    (he : Evo st st1) (h : SuccsOk st itm ss) : SuccsOk st1 itm ss := by
  intro i si hsi
  obtain ⟨hlen, _, hitm, _⟩ := he
  rw [hlen, hitm]
  exact h i si hsi

theorem ne_tail_of_slot (st : SL) (n i : Nat) (x : Nat × Bool)
    (htail : ∀ j, getSlot st 1 j = none) (h : getSlot st n i = some x) :
    n ≠ 1 := by
  intro he
  rw [he, htail i] at h
  cases h

/-- Common part of the `Inv` preservation lemmas for `setSlot`: every
field except the chain, which the caller restores. -/
theorem inv_setSlot_aux (st : SL) (n i p : Nat) (d : Bool)
    (hn1 : n ≠ 1) (hp : p < st.nodes.length)
    (hchain : ∃ l, ChainOk (setSlot st n i p d) l)
    (h : Inv st) : Inv (setSlot st n i p d) := by
  refine ⟨?_, ?_, ?_, ?_, ?_, hchain⟩
  · rw [length_setSlot]; exact h.hlen
  · rw [slevel_setSlot]; exact h.hslev
  · rw [itm_setSlot]; exact h.head_itm
  · intro j
    rw [getSlot_setSlot_ne st n i p d 1 j (Or.inl (fun he => hn1 he.symm))]
    exact h.tail_nil j
  · exact ptrs_setSlot st n i p d hp h.ptrs

/-- A slot write at a level `≥ 1` preserves the invariant. -/
theorem inv_setSlot_nonzero (st : SL) (n i p : Nat) (d : Bool)
    (hi : i ≠ 0) (hn1 : n ≠ 1) (hp : p < st.nodes.length)
    (h : Inv st) : Inv (setSlot st n i p d) := by
  refine inv_setSlot_aux st n i p d hn1 hp ?_ h
  obtain ⟨l, hl⟩ := h.chain
  refine ⟨l, chainOk_congr st _ l (by rw [length_setSlot]) ?_ ?_ hl⟩
  · intro a _
    rw [getNext_congr _ st a 0
      (getSlot_setSlot_ne st n i p d a 0 (Or.inr (fun he => hi he.symm)))]
  · intro a _
    exact itm_setSlot st n i p d a

/-- A slot write on an unreachable node preserves the invariant. -/
theorem inv_setSlot_fresh (st : SL) (x i p : Nat) (d : Bool)
    (hx : NoPtrTo st x) (hx0 : x ≠ 0) (hx1 : x ≠ 1)
    (hp : p < st.nodes.length)
    (h : Inv st) : Inv (setSlot st x i p d) := by
  refine inv_setSlot_aux st x i p d hx1 hp ?_ h
  obtain ⟨l, hl⟩ := h.chain
  have hnm : x ∉ l := not_mem_chain st l x hl hx hx0
  refine ⟨l, chainOk_congr st _ l (by rw [length_setSlot]) ?_ ?_ hl⟩
  · intro a ha
    rw [getNext_congr _ st a 0
      (getSlot_setSlot_ne st x i p d a 0 (Or.inl (fun he => hnm (he ▸ ha))))]
  · intro a _
    exact itm_setSlot st x i p d a

/-- Marking an edge (the successful marking CAS of `Delete`) preserves
the invariant: the pointer is kept, only the deleted bit changes. -/
theorem inv_mark (st : SL) (n i nxt : Nat)
    (hload : getSlot st n i = some (nxt, false))
    (h : Inv st) : Inv (setSlot st n i nxt true) := by
  have hn1 : n ≠ 1 := ne_tail_of_slot st n i _ h.tail_nil hload
  have hp : nxt < st.nodes.length := h.ptrs n i nxt false hload
  refine inv_setSlot_aux st n i nxt true hn1 hp ?_ h
  obtain ⟨l, hl⟩ := h.chain
  refine ⟨l, chainOk_congr st _ l (by rw [length_setSlot]) ?_ ?_ hl⟩
  · intro a _
    rcases getSlot_setSlot st n i nxt true a 0 with he | ⟨hm, hj, he⟩
    · rw [getNext_congr _ st a 0 he]
    · subst hm
      have hload0 : getSlot st a 0 = some (nxt, false) := hj ▸ hload
      unfold getNext
      rw [he, hload0]
  · intro a _
    exact itm_setSlot st n i nxt true a

/-- The successful help CAS of `levelSearch` (splicing a marked node out)
preserves the invariant. -/
theorem inv_unmark_cas (st : SL) (prev i curr nxt : Nat)
    (hcurr : getSlot st curr i = some (nxt, true))
    (hload : getSlot st prev i = some (curr, false))
    (h : Inv st) : Inv (setSlot st prev i nxt false) := by
  have hn1 : prev ≠ 1 := ne_tail_of_slot st prev i _ h.tail_nil hload
  have hp : nxt < st.nodes.length := h.ptrs curr i nxt true hcurr
  refine inv_setSlot_aux st prev i nxt false hn1 hp ?_ h
  obtain ⟨l, hl⟩ := h.chain
  by_cases hi : i = 0
  · subst hi
    obtain ⟨l', hl', _⟩ := chainOk_remove st prev curr nxt hload
      (by unfold getNext; rw [hcurr]) (h.tail_nil 0) l hl
    exact ⟨l', hl'⟩
  · refine ⟨l, chainOk_congr st _ l (by rw [length_setSlot]) ?_ ?_ hl⟩
    · intro a _
      rw [getNext_congr _ st a 0
        (getSlot_setSlot_ne st prev i nxt false a 0
          (Or.inr (fun he => hi he.symm)))]
    · intro a _
      exact itm_setSlot st prev i nxt false a

/-- The successful help CAS of `levelSearch` is an evolution step. -/
theorem evo_unmark_cas (st : SL) (prev i curr nxt : Nat)
    (hcurr : getSlot st curr i = some (nxt, true))
    (hload : getSlot st prev i = some (curr, false)) :
    Evo st (setSlot st prev i nxt false) := by
  refine ⟨length_setSlot st prev i nxt false, slevel_setSlot st prev i nxt false,
    fun a => itm_setSlot st prev i nxt false a,
    fun a => level_setSlot st prev i nxt false a,
    fun a => nextLen_setSlot st prev i nxt false a,
    fun h => inv_unmark_cas st prev i curr nxt hcurr hload h,
    fun x hx => noPtrTo_setSlot st prev i nxt false x
      (fun he => hx curr i nxt true hcurr he) hx⟩

/-! ## The findPath walk -/

/-- What one level of the walk guarantees: the state only evolves, the
returned `prev`/`curr` are valid nodes whose items compare strictly
below / not below the searched item, and both stay distinct from any
unreachable node. -/
theorem levelSearch_spec : ∀ (fuel : Nat) (st : SL) (itm : Itm)
    (i prev curr : Nat) (r : SRes),
    levelSearch fuel st itm i prev curr = r →
    Inv st → (getNode st prev).itm.cmp itm < 0 →
    prev < st.nodes.length → curr < st.nodes.length →
    match r with
    | .stuck => True
    | .retry st1 => Evo st st1
    | .done st1 prev1 curr1 cmpv =>
        Evo st st1 ∧ prev1 < st.nodes.length ∧ curr1 < st.nodes.length ∧
        (getNode st1 prev1).itm.cmp itm < 0 ∧
        (getNode st1 curr1).itm.cmp itm = cmpv ∧ ¬ cmpv < 0 ∧
        (∀ x, NoPtrTo st x → prev ≠ x → curr ≠ x → prev1 ≠ x ∧ curr1 ≠ x) := by
  intro fuel
  induction fuel with
  | zero =>
    intro st itm i prev curr r h _ _ _ _
    unfold levelSearch at h
    subst h
    trivial
  | succ f ih =>
    intro st itm i prev curr r h hInv hprev hprevb hcurrb
    unfold levelSearch at h
    rcases hg : getNext st curr i with ⟨nxtO, del⟩
    rw [hg] at h
    cases del with
    | true =>
      cases nxtO with
      | none =>
        subst h
        trivial
      | some nxt =>
        have hslot : getSlot st curr i = some (nxt, true) :=
          (getNext_eq_some st curr i nxt true).mp hg
        rcases hd : dcasNext st prev i (some curr) nxt false false with ⟨stA, ok⟩
        have h' : (match dcasNext st prev i (some curr) nxt false false with
            | (_, false) => SRes.retry st
            | (st1, true) =>
              match (getNext st1 prev i).1 with
              | none => SRes.stuck
              | some curr1 => levelSearch f st1 itm i prev curr1) = r := h
        rw [hd] at h'
        cases ok with
        | false =>
          subst h'
          exact evo_refl st
        | true =>
          rcases dcasNext_cases st prev i (some curr) nxt false false with
            hc | ⟨q, hq, hqe, hc⟩
          · rw [hd] at hc
            injection hc with _ hb
            cases hb
          · rw [hd] at hc
            injection hc with hA hB
            injection hqe with hqe
            subst hqe
            have hEvo : Evo st stA := by
              rw [hA]
              exact evo_unmark_cas st prev i curr nxt hslot hq
            have hInvA : Inv stA := hEvo.2.2.2.2.2.1 hInv
            have h2 : (match (getNext stA prev i).1 with
                | none => SRes.stuck
                | some curr1 => levelSearch f stA itm i prev curr1) = r := h'
            rcases hg2 : (getNext stA prev i).1 with _ | curr1 <;> rw [hg2] at h2
            · subst h2
              trivial
            · obtain ⟨dA, hdA⟩ := getNext_fst_some stA prev i curr1 hg2
              have hcurr1b : curr1 < stA.nodes.length :=
                hInvA.ptrs prev i curr1 dA hdA
              have hres := ih stA itm i prev curr1 r h2 hInvA
                (by rw [hEvo.2.2.1 prev]; exact hprev)
                (by rw [hEvo.1]; exact hprevb) hcurr1b
              rcases r with _ | st1 | ⟨st1, prev1, c1, cmpv⟩
              · trivial
              · exact evo_trans hEvo hres
              · obtain ⟨he1, hb1, hb2, hc1, hc2, hc3, hfr⟩ := hres
                refine ⟨evo_trans hEvo he1, ?_, ?_, hc1, hc2, hc3, ?_⟩
                · rw [← hEvo.1]; exact hb1
                · rw [← hEvo.1]; exact hb2
                · intro x hx hpx hcx
                  have hxA : NoPtrTo stA x := hEvo.2.2.2.2.2.2 x hx
                  exact hfr x hxA hpx (fun he => hxA prev i curr1 dA hdA he)
    | false =>
      by_cases hcmp : (getNode st curr).itm.cmp itm < 0
      · rw [if_pos hcmp] at h
        cases nxtO with
        | none =>
          have h2 : SRes.stuck = r := h
          subst h2
          trivial
        | some curr1 =>
          have h2 : levelSearch f st itm i curr curr1 = r := h
          have hdA : getSlot st curr i = some (curr1, false) :=
            (getNext_eq_some st curr i curr1 false).mp hg
          have hcurr1b : curr1 < st.nodes.length :=
            hInv.ptrs curr i curr1 false hdA
          have hres := ih st itm i curr curr1 r h2 hInv hcmp hcurrb hcurr1b
          rcases r with _ | st1 | ⟨st1, prev1, c1, cmpv⟩
          · trivial
          · exact hres
          · obtain ⟨he1, hb1, hb2, hc1, hc2, hc3, hfr⟩ := hres
            refine ⟨he1, hb1, hb2, hc1, hc2, hc3, ?_⟩
            intro x hx _ hcx
            exact hfr x hx hcx (fun he => hx curr i curr1 false hdA he)
      · rw [if_neg hcmp] at h
        have h2 : SRes.done st prev curr ((getNode st curr).itm.cmp itm) = r := h
        subst h2
        refine ⟨evo_refl st, hprevb, hcurrb, hprev, rfl, hcmp, ?_⟩
        intro x _ hpx hcx
        exact ⟨hpx, hcx⟩

/-- A filled entry of `l.set i a` is the new entry or an old one. -/
theorem getD_set_some (l : List (Option Nat)) (i j : Nat) (a : Option Nat)
    (x : Nat) (h : (l.set i a).getD j none = some x) :
    (j = i ∧ a = some x) ∨ l.getD j none = some x := by
  by_cases hij : j = i
  · subst hij
    by_cases hlen : j < l.length
    · left
      refine ⟨rfl, ?_⟩
      rw [List.getD_eq_getElem?_getD, List.getElem?_set_self hlen] at h
      simpa using h
    · right
      rw [List.set_eq_of_length_le (Nat.le_of_not_lt hlen)] at h
      exact h
  · right
    rw [List.getD_eq_getElem?_getD,
      List.getElem?_set_ne (fun he => hij he.symm)] at h
    rw [List.getD_eq_getElem?_getD]
    exact h

/-- What the level loop of `findPath` guarantees: on `done`, the state
has only evolved, every filled `preds`/`succs` entry is a valid node on
the strict/non-strict side of the searched item, and no entry is an
unreachable node. -/
theorem findLoop_spec : ∀ (i fuel : Nat) (st : SL) (itm : Itm) (prev : Nat)
    (preds succs : List (Option Nat)) (r : FRes),
    findLoop fuel st itm i prev preds succs = r →
    Inv st → (getNode st prev).itm.cmp itm < 0 →
    prev < st.nodes.length →
    PredsOk st itm preds → SuccsOk st itm succs →
    match r with
    | .stuck => True
    | .retry st1 => Evo st st1
    | .done st1 preds1 succs1 _ =>
        Evo st st1 ∧ PredsOk st1 itm preds1 ∧ SuccsOk st1 itm succs1 ∧
        (∀ x, NoPtrTo st x → prev ≠ x → FreshOk x preds → FreshOk x succs →
          FreshOk x preds1 ∧ FreshOk x succs1) := by
  intro i
  induction i with
  | zero =>
    intro fuel st itm prev preds succs r h hInv hprev hprevb hPreds hSuccs
    unfold findLoop at h
    rcases hg : (getNext st prev 0).1 with _ | curr0
    · have h2 : FRes.stuck = r := by rw [hg] at h; exact h
      subst h2
      trivial
    · rw [hg] at h
      have h1 : (match levelSearch fuel st itm 0 prev curr0 with
          | SRes.stuck => FRes.stuck
          | SRes.retry st1 => FRes.retry st1
          | SRes.done st1 prev1 curr1 cmpv =>
            FRes.done st1 (preds.set 0 (some prev1))
              (succs.set 0 (some curr1)) (cmpv == 0)) = r := h
      obtain ⟨d0, hd0⟩ := getNext_fst_some st prev 0 curr0 hg
      have hcurr0b : curr0 < st.nodes.length := hInv.ptrs prev 0 curr0 d0 hd0
      rcases hls : levelSearch fuel st itm 0 prev curr0 with
        _ | st1 | ⟨st1, prev1, curr1, cmpv⟩ <;>
        (have hspec := levelSearch_spec fuel st itm 0 prev curr0 _ hls hInv
          hprev hprevb hcurr0b
         rw [hls] at h1)

      · have h2 : FRes.stuck = r := h1
        subst h2
        trivial
      · have h2 : FRes.retry st1 = r := h1
        subst h2
        exact hspec
      · obtain ⟨hEvo, hb1, hb2, hc1, hc2, hc3, hfr⟩ := hspec
        have h2 : FRes.done st1 (preds.set 0 (some prev1))
            (succs.set 0 (some curr1)) (cmpv == 0) = r := h1
        subst h2
        refine ⟨hEvo, ?_, ?_, ?_⟩
        · intro j pj hpj
          rcases getD_set_some preds 0 j (some prev1) pj hpj with ⟨_, ha⟩ | hold
          · injection ha with ha
            subst ha
            exact ⟨by rw [hEvo.1]; exact hb1, hc1⟩
          · exact predsOk_evo st st1 itm preds hEvo hPreds j pj hold
        · intro j sj hsj
          rcases getD_set_some succs 0 j (some curr1) sj hsj with ⟨_, ha⟩ | hold
          · injection ha with ha
            subst ha
            refine ⟨by rw [hEvo.1]; exact hb2, ?_⟩
            rw [hc2]
            exact hc3
          · exact succsOk_evo st st1 itm succs hEvo hSuccs j sj hold
        · intro x hx hpx hfp hfs
          obtain ⟨hp1x, hc1x⟩ := hfr x hx hpx
            (fun he => hx prev 0 curr0 d0 hd0 he)
          constructor
          · intro j pj hpj
            rcases getD_set_some preds 0 j (some prev1) pj hpj with
              ⟨_, ha⟩ | hold
            · injection ha with ha
              subst ha
              exact hp1x
            · exact hfp j pj hold
          · intro j sj hsj
            rcases getD_set_some succs 0 j (some curr1) sj hsj with
              ⟨_, ha⟩ | hold
            · injection ha with ha
              subst ha
              exact hc1x
            · exact hfs j sj hold
  | succ i' ih =>
    intro fuel st itm prev preds succs r h hInv hprev hprevb hPreds hSuccs
    unfold findLoop at h
    rcases hg : (getNext st prev (i' + 1)).1 with _ | curr0
    · have h2 : FRes.stuck = r := by rw [hg] at h; exact h
      subst h2
      trivial
    · rw [hg] at h
      have h1 : (match levelSearch fuel st itm (i' + 1) prev curr0 with
          | SRes.stuck => FRes.stuck
          | SRes.retry st1 => FRes.retry st1
          | SRes.done st1 prev1 curr1 cmpv =>
            findLoop fuel st1 itm i' prev1 (preds.set (i' + 1) (some prev1))
              (succs.set (i' + 1) (some curr1))) = r := h
      obtain ⟨d0, hd0⟩ := getNext_fst_some st prev (i' + 1) curr0 hg
      have hcurr0b : curr0 < st.nodes.length :=
        hInv.ptrs prev (i' + 1) curr0 d0 hd0
      rcases hls : levelSearch fuel st itm (i' + 1) prev curr0 with
        _ | st1 | ⟨st1, prev1, curr1, cmpv⟩ <;>
        (have hspec := levelSearch_spec fuel st itm (i' + 1) prev curr0 _ hls
          hInv hprev hprevb hcurr0b
         rw [hls] at h1)

      · have h2 : FRes.stuck = r := h1
        subst h2
        trivial
      · have h2 : FRes.retry st1 = r := h1
        subst h2
        exact hspec
      · obtain ⟨hEvo, hb1, hb2, hc1, hc2, hc3, hfr⟩ := hspec
        have h2 : findLoop fuel st1 itm i' prev1
            (preds.set (i' + 1) (some prev1))
            (succs.set (i' + 1) (some curr1)) = r := h1
        have hInv1 : Inv st1 := hEvo.2.2.2.2.2.1 hInv
        have hPreds1 : PredsOk st1 itm (preds.set (i' + 1) (some prev1)) := by
          intro j pj hpj
          rcases getD_set_some preds (i' + 1) j (some prev1) pj hpj with
            ⟨_, ha⟩ | hold
          · injection ha with ha
            subst ha
            exact ⟨by rw [hEvo.1]; exact hb1, hc1⟩
          · exact predsOk_evo st st1 itm preds hEvo hPreds j pj hold
        have hSuccs1 : SuccsOk st1 itm (succs.set (i' + 1) (some curr1)) := by
          intro j sj hsj
          rcases getD_set_some succs (i' + 1) j (some curr1) sj hsj with
            ⟨_, ha⟩ | hold
          · injection ha with ha
            subst ha
            refine ⟨by rw [hEvo.1]; exact hb2, ?_⟩
            rw [hc2]
            exact hc3
          · exact succsOk_evo st st1 itm succs hEvo hSuccs j sj hold
        have hres := ih fuel st1 itm prev1 _ _ r h2 hInv1 hc1
          (by rw [hEvo.1]; exact hb1) hPreds1 hSuccs1
        rcases r with _ | st2 | ⟨st2, preds2, succs2, found⟩
        · trivial
        · exact evo_trans hEvo hres
        · obtain ⟨hEvo2, hP2, hS2, hfr2⟩ := hres
          refine ⟨evo_trans hEvo hEvo2, hP2, hS2, ?_⟩
          intro x hx hpx hfp hfs
          obtain ⟨hp1x, hc1x⟩ := hfr x hx hpx
            (fun he => hx prev (i' + 1) curr0 d0 hd0 he)
          refine hfr2 x (hEvo.2.2.2.2.2.2 x hx) hp1x ?_ ?_
          · intro j pj hpj
            rcases getD_set_some preds (i' + 1) j (some prev1) pj hpj with
              ⟨_, ha⟩ | hold
            · injection ha with ha
              subst ha
              exact hp1x
            · exact hfp j pj hold
          · intro j sj hsj
            rcases getD_set_some succs (i' + 1) j (some curr1) sj hsj with
              ⟨_, ha⟩ | hold
            · injection ha with ha
              subst ha
              exact hc1x
            · exact hfs j sj hold

theorem getD_replicate_none (n j : Nat) :
    (List.replicate n (none : Option Nat)).getD j none = none := by
  rw [List.getD_eq_getElem?_getD, List.getElem?_replicate]
  split_ifs <;> rfl

/-- What `findPath` guarantees on success: the state has only evolved,
every filled `preds`/`succs` entry is a valid node strictly below / not
below the searched item, and no entry is an unreachable node. -/
theorem findPath_spec : ∀ (fuel : Nat) (st : SL) (itm : Itm)
    (res : Option (SL × List (Option Nat) × List (Option Nat) × Bool)),
    findPath fuel st itm = res → Inv st →
    match res with
    | none => True
    | some (st1, preds, succs, _) =>
        Evo st st1 ∧ PredsOk st1 itm preds ∧ SuccsOk st1 itm succs ∧
        (∀ x, NoPtrTo st x → x ≠ 0 → FreshOk x preds ∧ FreshOk x succs) := by
  intro fuel
  induction fuel with
  | zero =>
    intro st itm res h _
    unfold findPath at h
    subst h
    trivial
  | succ f ih =>
    intro st itm res h hInv
    unfold findPath at h
    have hprev0 : (getNode st 0).itm.cmp itm < 0 := by
      rw [hInv.head_itm, Itm.cmp_minI]
      decide
    have h0b : 0 < st.nodes.length := by
      have := hInv.hlen
      omega
    have hPempty : PredsOk st itm (List.replicate (MaxLevel + 1) none) := by
      intro j pj hpj
      rw [getD_replicate_none] at hpj
      cases hpj
    have hSempty : SuccsOk st itm (List.replicate (MaxLevel + 1) none) := by
      intro j sj hsj
      rw [getD_replicate_none] at hsj
      cases hsj
    have hFempty : ∀ x : Nat, FreshOk x (List.replicate (MaxLevel + 1) none) := by
      intro x j pj hpj
      rw [getD_replicate_none] at hpj
      cases hpj
    rcases hfl : findLoop (f + 1) st itm st.slevel 0
        (List.replicate (MaxLevel + 1) none)
        (List.replicate (MaxLevel + 1) none) with
      _ | st1 | ⟨st1, preds, succs, found⟩ <;>
      (have hspec := findLoop_spec st.slevel (f + 1) st itm 0
        (List.replicate (MaxLevel + 1) none)
        (List.replicate (MaxLevel + 1) none) _ hfl hInv hprev0 h0b
        hPempty hSempty
       rw [hfl] at h)

    · subst h
      trivial
    · have hEvo : Evo st st1 := hspec
      have hres := ih st1 itm res h (hEvo.2.2.2.2.2.1 hInv)
      rcases res with _ | ⟨st2, p2, s2, b2⟩
      · trivial
      · obtain ⟨hEvo2, hP2, hS2, hfr2⟩ := hres
        refine ⟨evo_trans hEvo hEvo2, hP2, hS2, ?_⟩
        intro x hx hx0
        exact hfr2 x (hEvo.2.2.2.2.2.2 x hx) hx0
    · subst h
      obtain ⟨hEvo, hP, hS, hfr⟩ := hspec
      refine ⟨hEvo, hP, hS, ?_⟩
      intro x hx hx0
      exact hfr x hx (fun he => hx0 he.symm) (hFempty x) (hFempty x)

/-! ## Insert2 -/

/-- In a single-threaded run (`slAtCas = slAtLoad`), `randomLevel` never
raises the top level beyond `MaxLevel`. -/
theorem randomLevel_newLevel_le (sl k : Nat) (h : sl ≤ MaxLevel) :
    (randomLevel sl sl k).newLevel ≤ MaxLevel := by
  unfold randomLevel
  by_cases h1 : (if k > MaxLevel then MaxLevel else k) > sl
  · rw [if_pos h1]
    show (if sl = sl then sl + 1 else sl) ≤ MaxLevel
    rw [if_pos rfl]
    by_cases h2 : k > MaxLevel
    · rw [if_pos h2] at h1
      omega
    · rw [if_neg h2] at h1
      omega
  · rw [if_neg h1]
    exact h

theorem getD_replicate_none2 {α : Type} (n j : Nat) :
    (List.replicate n (none : Option α)).getD j none = none := by
  rw [List.getD_eq_getElem?_getD, List.getElem?_replicate]
  split_ifs <;> rfl

theorem getNode_append_lt (st : SL) (nd : Node) (m : Nat)
    (h : m < st.nodes.length) :
    getNode { st with nodes := st.nodes ++ [nd] } m = getNode st m := by
  unfold getNode
  simp only [List.getD_eq_getElem?_getD, List.getElem?_append]
  rw [if_pos h]

theorem getNode_append_self (st : SL) (nd : Node) :
    getNode { st with nodes := st.nodes ++ [nd] } st.nodes.length = nd := by
  unfold getNode
  rw [List.getD_eq_getElem?_getD,
    List.getElem?_append_right (Nat.le_refl _)]
  simp

/-- A filled slot of the heap extended with a fresh node is a slot of the
old heap. -/
theorem getSlot_append (st : SL) (itm : Itm) (lvl : Nat) (m i : Nat)
    (x : Nat × Bool)
    (h : getSlot { st with nodes := st.nodes ++ [newNode itm lvl] } m i =
      some x) :
    m < st.nodes.length ∧ getSlot st m i = some x := by
  by_cases hm : m < st.nodes.length
  · refine ⟨hm, ?_⟩
    unfold getSlot at h
    rw [getNode_append_lt st _ m hm] at h
    exact h
  · exfalso
    unfold getSlot at h
    rcases Nat.lt_or_ge m (st.nodes.length + 1) with hm2 | hm2
    · have hme : m = st.nodes.length := by omega
      subst hme
      rw [getNode_append_self] at h
      rw [show (newNode itm lvl).next = List.replicate (lvl + 1) none from rfl,
        getD_replicate_none2] at h
      cases h
    · have hdef : getNode { st with nodes := st.nodes ++ [newNode itm lvl] } m
          = newNode .minI 0 := by
        unfold getNode
        rw [List.getD_eq_getElem?_getD,
          List.getElem?_eq_none (by simp; omega)]
        rfl
      rw [hdef] at h
      rw [show (newNode Itm.minI 0).next = List.replicate 1 none from rfl,
        getD_replicate_none2] at h
      cases h

/-- Allocating a node preserves the invariant. -/
theorem inv_allocNode (st : SL) (itm : Itm) (lvl : Nat) (h : Inv st) :
    Inv (allocNode st itm lvl).2 := by
  show Inv { st with nodes := st.nodes ++ [newNode itm lvl] }
  refine ⟨?_, h.hslev, ?_, ?_, ?_, ?_⟩
  · show 2 ≤ (st.nodes ++ [newNode itm lvl]).length
    rw [List.length_append]
    have := h.hlen
    simp only [List.length_singleton]
    omega
  · show (getNode _ 0).itm = .minI
    rw [getNode_append_lt st _ 0 (by have := h.hlen; omega)]
    exact h.head_itm
  · intro i
    show getSlot _ 1 i = none
    unfold getSlot
    rw [getNode_append_lt st _ 1 (by have := h.hlen; omega)]
    exact h.tail_nil i
  · intro m i q d hq
    obtain ⟨_, hold⟩ := getSlot_append st itm lvl m i (q, d) hq
    have := h.ptrs m i q d hold
    show q < (st.nodes ++ [newNode itm lvl]).length
    rw [List.length_append]
    simp only [List.length_singleton]
    omega
  · obtain ⟨l, hl⟩ := h.chain
    refine ⟨l, chainOk_congr st _ l ?_ ?_ ?_ hl⟩
    · show st.nodes.length ≤ (st.nodes ++ [newNode itm lvl]).length
      rw [List.length_append]
      omega
    · intro a ha
      refine congrArg Prod.fst (getNext_congr _ st a 0 ?_)
      unfold getSlot
      rw [getNode_append_lt st _ a (hl.bounded a ha)]
    · intro a ha
      rw [getNode_append_lt st _ a (hl.bounded a ha)]

/-- The freshly allocated node is unreachable. -/
theorem noPtrTo_allocNode (st : SL) (itm : Itm) (lvl : Nat) (h : Inv st) :
    NoPtrTo (allocNode st itm lvl).2 (allocNode st itm lvl).1 := by
  show NoPtrTo { st with nodes := st.nodes ++ [newNode itm lvl] }
    st.nodes.length
  intro m i q d hq
  obtain ⟨_, hold⟩ := getSlot_append st itm lvl m i (q, d) hq
  have := h.ptrs m i q d hold
  show q ≠ st.nodes.length
  omega

theorem succsOk_setSlot (st : SL) (itm : Itm) (ss : List (Option Nat))
    (n i p : Nat) (d : Bool) (h : SuccsOk st itm ss) :
    SuccsOk (setSlot st n i p d) itm ss := by
  intro j sj hsj
  rw [length_setSlot, itm_setSlot]
  exact h j sj hsj

/-- The `fixThisLevel` phase of `Insert2` (levels `≥ 1`) preserves the
invariant: the freshly linked levels only add shortcuts, the level-0
chain is untouched. -/
theorem fixLevels_ge1 : ∀ (fuel : Nat) (st : SL) (itm : Itm)
    (x itemLevel i : Nat) (preds succs : List (Option Nat)) (st' : SL),
    fixLevels fuel st itm x itemLevel i preds succs = some st' →
    Inv st → 1 ≤ i → x < st.nodes.length → x ≠ 1 →
    SuccsOk st itm succs →
    Inv st' := by
  intro fuel
  induction fuel with
  | zero =>
    intro st itm x itemLevel i preds succs st' h _ _ _ _ _
    cases h
  | succ f ih =>
    intro st itm x itemLevel i preds succs st' h hInv hi hxb hx1 hSuccs
    unfold fixLevels at h
    by_cases hlt : itemLevel < i
    · rw [if_pos hlt] at h
      injection h with h
      subst h
      exact hInv
    · rw [if_neg hlt] at h
      rcases hpi : preds.getD i none with _ | pi <;> rw [hpi] at h
      · rcases hsi : succs.getD i none with _ | si <;> rw [hsi] at h <;>
          exact absurd h (by intro hc; cases hc)
      · rcases hsi : succs.getD i none with _ | si <;> rw [hsi] at h
        · exact absurd h (by intro hc; cases hc)
        · obtain ⟨hsib, _⟩ := hSuccs i si hsi
          have hInv1 : Inv (setSlot st x i si false) :=
            inv_setSlot_nonzero st x i si false (by omega) hx1 hsib hInv
          have h2 : (if (dcasNext (setSlot st x i si false) pi i (some si) x
                false false).2 then
              fixLevels f (dcasNext (setSlot st x i si false) pi i (some si) x
                false false).1 itm x itemLevel (i + 1) preds succs
            else
              match findPath (f + 1) (dcasNext (setSlot st x i si false) pi i
                  (some si) x false false).1 itm with
              | none => none
              | some (st3, p1, s1, _) =>
                fixLevels f st3 itm x itemLevel i p1 s1) = some st' := h
          rcases hd : dcasNext (setSlot st x i si false) pi i (some si) x
            false false with ⟨stA, ok⟩
          rw [hd] at h2
          cases ok with
          | true =>
            have h3 : fixLevels f stA itm x itemLevel (i + 1) preds succs =
              some st' := h2
            rcases dcasNext_cases (setSlot st x i si false) pi i (some si) x
              false false with hc | ⟨q, hq, hqe, hc⟩
            · rw [hd] at hc
              injection hc with _ hb
              cases hb
            · rw [hd] at hc
              injection hc with hA _
              have hpi1 : pi ≠ 1 :=
                ne_tail_of_slot _ pi i _ hInv1.tail_nil hq
              have hInvA : Inv stA := by
                rw [hA]
                exact inv_setSlot_nonzero _ pi i x false (by omega) hpi1
                  (by rw [length_setSlot]; exact hxb) hInv1
              refine ih stA itm x itemLevel (i + 1) preds succs st' h3 hInvA
                (by omega) ?_ hx1 ?_
              · rw [hA, length_setSlot, length_setSlot]
                exact hxb
              · rw [hA]
                exact succsOk_setSlot _ itm succs pi i x false
                  (succsOk_setSlot st itm succs x i si false hSuccs)
          | false =>
            have hA : stA = setSlot st x i si false := by
              rcases dcasNext_cases (setSlot st x i si false) pi i (some si) x
                false false with hc | ⟨q, hq, hqe, hc⟩
              · rw [hd] at hc
                injection hc with hA _
              · rw [hd] at hc
                injection hc with _ hb
                cases hb
            have h3 : (match findPath (f + 1) stA itm with
                | none => none
                | some (st3, p1, s1, _) =>
                  fixLevels f st3 itm x itemLevel i p1 s1) = some st' := h2
            rcases hfp : findPath (f + 1) stA itm with _ | ⟨st3, p1, s1, b⟩ <;>
              rw [hfp] at h3
            · cases h3
            · have hInvA : Inv stA := by
                rw [hA]
                exact hInv1
              have hspec := findPath_spec (f + 1) stA itm _ hfp hInvA
              obtain ⟨hEvo, hP3, hS3, _⟩ := hspec
              exact ih st3 itm x itemLevel i p1 s1 st' h3
                (hEvo.2.2.2.2.2.1 hInvA) hi
                (by rw [hEvo.1, hA, length_setSlot]; exact hxb) hx1 hS3

/-- The level-0 linking phase of `Insert2` preserves the invariant: the
successful CAS splices the fresh node between a strictly smaller
predecessor and a not-smaller successor. -/
theorem fixLevels_zero : ∀ (fuel : Nat) (st : SL) (v : Int)
    (x itemLevel : Nat) (preds succs : List (Option Nat)) (st' : SL),
    fixLevels fuel st (.val v) x itemLevel 0 preds succs = some st' →
    Inv st →
    (getNode st x).itm = .val v →
    x < st.nodes.length → x ≠ 0 → x ≠ 1 →
    0 < (getNode st x).next.length →
    NoPtrTo st x →
    PredsOk st (.val v) preds → SuccsOk st (.val v) succs →
    FreshOk x preds → FreshOk x succs →
    Inv st' := by
  intro fuel
  induction fuel with
  | zero =>
    intro st v x itemLevel preds succs st' h _ _ _ _ _ _ _ _ _ _ _
    cases h
  | succ f ih =>
    intro st v x itemLevel preds succs st' h hInv hxv hxb hx0 hx1 hxn hNPT
      hPreds hSuccs hFp hFs
    unfold fixLevels at h
    rw [if_neg (Nat.not_lt_zero itemLevel)] at h
    rcases hpi : preds.getD 0 none with _ | p0 <;> rw [hpi] at h
    · rcases hsi : succs.getD 0 none with _ | s0 <;> rw [hsi] at h <;>
        exact absurd h (by intro hc; cases hc)
    · rcases hsi : succs.getD 0 none with _ | s0 <;> rw [hsi] at h
      · exact absurd h (by intro hc; cases hc)
      · obtain ⟨hsb, hscmp⟩ := hSuccs 0 s0 hsi
        have hsx : s0 ≠ x := hFs 0 s0 hsi
        have hInv1 : Inv (setSlot st x 0 s0 false) :=
          inv_setSlot_fresh st x 0 s0 false hNPT hx0 hx1 hsb hInv
        have hNPT1 : NoPtrTo (setSlot st x 0 s0 false) x :=
          noPtrTo_setSlot st x 0 s0 false x hsx hNPT
        have h2 : (if (dcasNext (setSlot st x 0 s0 false) p0 0 (some s0) x
              false false).2 then
            fixLevels f (dcasNext (setSlot st x 0 s0 false) p0 0 (some s0) x
              false false).1 (.val v) x itemLevel 1 preds succs
          else
            match findPath (f + 1) (dcasNext (setSlot st x 0 s0 false) p0 0
                (some s0) x false false).1 (.val v) with
            | none => none
            | some (st3, p1, s1, _) =>
              fixLevels f st3 (.val v) x itemLevel 0 p1 s1) = some st' := h
        rcases hd : dcasNext (setSlot st x 0 s0 false) p0 0 (some s0) x
          false false with ⟨stA, ok⟩
        rw [hd] at h2
        cases ok with
        | true =>
          have h3 : fixLevels f stA (.val v) x itemLevel 1 preds succs =
            some st' := h2
          rcases dcasNext_cases (setSlot st x 0 s0 false) p0 0 (some s0) x
            false false with hc | ⟨q, hq, hqe, hc⟩
          · rw [hd] at hc
            injection hc with _ hb
            cases hb
          · rw [hd] at hc
            injection hc with hA _
            injection hqe with hqe
            subst hqe
            have hpi1 : p0 ≠ 1 :=
              ne_tail_of_slot _ p0 0 _ hInv1.tail_nil hq
            obtain ⟨hpb, hpcmp⟩ := hPreds 0 p0 hpi
            have hx' : (getNext (setSlot st x 0 s0 false) x 0).1 = some s0 := by
              unfold getNext
              rw [getSlot_setSlot_self st x 0 s0 false hxb hxn]
            have hxp' : Itm.le (getNode (setSlot st x 0 s0 false) p0).itm
                (getNode (setSlot st x 0 s0 false) x).itm := by
              rw [itm_setSlot, itm_setSlot, hxv]
              exact Itm.le_of_cmp_lt_val hpcmp
            have hxc' : Itm.le (getNode (setSlot st x 0 s0 false) x).itm
                (getNode (setSlot st x 0 s0 false) s0).itm := by
              rw [itm_setSlot, itm_setSlot, hxv]
              exact Itm.le_val_of_cmp_ge hscmp
            have hInvA : Inv stA := by
              rw [hA]
              refine inv_setSlot_aux _ p0 0 x false hpi1
                (by rw [length_setSlot]; exact hxb) ?_ hInv1
              obtain ⟨l, hl⟩ := hInv1.chain
              exact chainOk_insert (setSlot st x 0 s0 false) p0 s0 x hq hx'
                hxp' hxc' (by rw [length_setSlot]; exact hxb)
                (hInv1.tail_nil 0) l hl
                (not_mem_chain _ l x hl hNPT1 hx0)
            refine fixLevels_ge1 f stA (.val v) x itemLevel 1 preds succs st'
              h3 hInvA (Nat.le_refl 1) ?_ hx1 ?_
            · rw [hA, length_setSlot, length_setSlot]
              exact hxb
            · rw [hA]
              exact succsOk_setSlot _ _ succs p0 0 x false
                (succsOk_setSlot st _ succs x 0 s0 false hSuccs)
        | false =>
          have hA : stA = setSlot st x 0 s0 false := by
            rcases dcasNext_cases (setSlot st x 0 s0 false) p0 0 (some s0) x
              false false with hc | ⟨q, hq, hqe, hc⟩
            · rw [hd] at hc
              injection hc with hA _
            · rw [hd] at hc
              injection hc with _ hb
              cases hb
          have hInvA : Inv stA := by
            rw [hA]
            exact hInv1
          have hNPTA : NoPtrTo stA x := by
            rw [hA]
            exact hNPT1
          have h3 : (match findPath (f + 1) stA (.val v) with
              | none => none
              | some (st3, p1, s1, _) =>
                fixLevels f st3 (.val v) x itemLevel 0 p1 s1) = some st' := h2
          rcases hfp : findPath (f + 1) stA (.val v) with _ | ⟨st3, p1, s1, b⟩ <;>
            rw [hfp] at h3
          · cases h3
          · have hspec := findPath_spec (f + 1) stA (.val v) _ hfp hInvA
            obtain ⟨hEvo, hP3, hS3, hFr3⟩ := hspec
            obtain ⟨hFp3, hFs3⟩ := hFr3 x hNPTA hx0
            refine ih st3 v x itemLevel p1 s1 st' h3
              (hEvo.2.2.2.2.2.1 hInvA) ?_ ?_ hx0 hx1 ?_ ?_ hP3 hS3 hFp3 hFs3
            · rw [hEvo.2.2.1 x, hA, itm_setSlot]
              exact hxv
            · rw [hEvo.1, hA, length_setSlot]
              exact hxb
            · rw [hEvo.2.2.2.2.1 x, hA, nextLen_setSlot]
              exact hxn
            · exact hEvo.2.2.2.2.2.2 x hNPTA

/-- `Insert2` preserves the heap invariant. -/
theorem insert2_spec (fuel : Nat) (st : SL) (v : Int) (k : Nat) (st' : SL)
    (h : insert2 fuel st v k = some st') (hInv : Inv st) : Inv st' := by
  cases fuel with
  | zero => cases h
  | succ f =>
    have hslev0 : (randomLevel st.slevel st.slevel k).newLevel ≤ MaxLevel :=
      randomLevel_newLevel_le st.slevel k hInv.hslev
    obtain ⟨l0, hl0⟩ := hInv.chain
    have hInv0 : Inv { st with
        slevel := (randomLevel st.slevel st.slevel k).newLevel } :=
      ⟨hInv.hlen, hslev0, hInv.head_itm, hInv.tail_nil, hInv.ptrs,
       ⟨l0, chainOk_congr st _ l0 (Nat.le_refl _) (fun _ _ => rfl)
         (fun _ _ => rfl) hl0⟩⟩
    have h1 : (match findPath (f + 1)
          (allocNode { st with
              slevel := (randomLevel st.slevel st.slevel k).newLevel }
            (.val v) (randomLevel st.slevel st.slevel k).ret).2 (.val v) with
        | none => none
        | some (st2, preds, succs, _) =>
          fixLevels f st2 (.val v)
            (allocNode { st with
                slevel := (randomLevel st.slevel st.slevel k).newLevel }
              (.val v) (randomLevel st.slevel st.slevel k).ret).1
            (randomLevel st.slevel st.slevel k).ret 0 preds succs) =
        some st' := h
    have hInvA := inv_allocNode { st with
        slevel := (randomLevel st.slevel st.slevel k).newLevel }
      (.val v) (randomLevel st.slevel st.slevel k).ret hInv0
    have hNPTA := noPtrTo_allocNode { st with
        slevel := (randomLevel st.slevel st.slevel k).newLevel }
      (.val v) (randomLevel st.slevel st.slevel k).ret hInv0
    have hNdA : getNode (allocNode { st with
          slevel := (randomLevel st.slevel st.slevel k).newLevel }
        (.val v) (randomLevel st.slevel st.slevel k).ret).2
        (allocNode { st with
            slevel := (randomLevel st.slevel st.slevel k).newLevel }
          (.val v) (randomLevel st.slevel st.slevel k).ret).1 =
        newNode (.val v) (randomLevel st.slevel st.slevel k).ret :=
      getNode_append_self _ _
    rcases hal : allocNode { st with
        slevel := (randomLevel st.slevel st.slevel k).newLevel }
      (.val v) (randomLevel st.slevel st.slevel k).ret with ⟨x, st1⟩
    rw [hal] at h1 hInvA hNPTA hNdA
    have hxeq : st.nodes.length = x := congrArg Prod.fst hal
    have hInv1 : Inv st1 := hInvA
    have hNPT1 : NoPtrTo st1 x := hNPTA
    have hNd1 : getNode st1 x =
      newNode (.val v) (randomLevel st.slevel st.slevel k).ret := hNdA
    have hxb : x < st1.nodes.length := by
      have h5 : st1.nodes.length = (st.nodes ++
          [newNode (.val v) (randomLevel st.slevel st.slevel k).ret]).length := by
        have h6 := congrArg (fun p => p.2.nodes.length) hal
        exact h6.symm
      rw [List.length_append] at h5
      simp only [List.length_singleton] at h5
      omega
    have hx0 : x ≠ 0 := by
      have := hInv.hlen
      omega
    have hx1 : x ≠ 1 := by
      have := hInv.hlen
      omega
    have h2 : (match findPath (f + 1) st1 (.val v) with
        | none => none
        | some (st2, preds, succs, _) =>
          fixLevels f st2 (.val v) x
            (randomLevel st.slevel st.slevel k).ret 0 preds succs) =
        some st' := h1
    rcases hfp : findPath (f + 1) st1 (.val v) with _ | ⟨st2, preds, succs, b⟩ <;>
      rw [hfp] at h2
    · cases h2
    · have h3 : fixLevels f st2 (.val v) x
          (randomLevel st.slevel st.slevel k).ret 0 preds succs = some st' := h2
      obtain ⟨hEvo, hP, hS, hFr⟩ := findPath_spec (f + 1) st1 (.val v) _ hfp hInv1
      obtain ⟨hFp, hFs⟩ := hFr x hNPT1 hx0
      refine fixLevels_zero f st2 v x
        (randomLevel st.slevel st.slevel k).ret preds succs st' h3
        (hEvo.2.2.2.2.2.1 hInv1) ?_ ?_ hx0 hx1 ?_
        (hEvo.2.2.2.2.2.2 x hNPT1) hP hS hFp hFs
      · rw [hEvo.2.2.1 x, hNd1]
        rfl
      · rw [hEvo.1]
        exact hxb
      · rw [hEvo.2.2.2.2.1 x, hNd1]
        simp [newNode]

/-! ## Delete -/

/-- The inner marking loop of `Delete` preserves the invariant: the
successful CAS keeps the stored pointer and only sets the deleted bit. -/
theorem markInner_inv : ∀ (fuel : Nat) (st : SL) (node i : Nat) (dm : Bool)
    (st1 : SL) (dm1 : Bool), markInner fuel st node i dm = some (st1, dm1) →
    Inv st → Inv st1 := by
  intro fuel
  induction fuel with
  | zero =>
    intro st node i dm st1 dm1 h hInv
    unfold markInner at h
    rcases hg : getNext st node i with ⟨nxtO, del⟩
    rw [hg] at h
    cases nxtO <;> cases del
    · cases h
    · injection h with h2
      injection h2 with h3 _
      subst h3
      exact hInv
    · cases h
    · injection h with h2
      injection h2 with h3 _
      subst h3
      exact hInv
  | succ f ih =>
    intro st node i dm st1 dm1 h hInv
    unfold markInner at h
    rcases hg : getNext st node i with ⟨nxtO, del⟩
    rw [hg] at h
    cases nxtO with
    | none =>
      cases del
      · exact ih st node i false st1 dm1 h hInv
      · injection h with h2
        injection h2 with h3 _
        subst h3
        exact hInv
    | some nxt =>
      cases del
      case true =>
        injection h with h2
        injection h2 with h3 _
        subst h3
        exact hInv
      case false =>
        rcases hd : dcasNext st node i (some nxt) nxt false true with ⟨stA, ok⟩
        have h' : (match dcasNext st node i (some nxt) nxt false true with
            | (s, ok) => markInner f s node i ok) = some (st1, dm1) := h
        rw [hd] at h'
        have hd1 : stA = (dcasNext st node i (some nxt) nxt false true).1 := by
          rw [hd]
        have hInvA : Inv stA := by
          rw [hd1]
          rcases dcasNext_cases st node i (some nxt) nxt false true with
            hc | ⟨q, hq, hqe, hc⟩
          · rw [hc]
            exact hInv
          · rw [hc]
            injection hqe with hqe
            subst hqe
            exact inv_mark st node i nxt hq hInv
        exact ih stA node i ok st1 dm1 h' hInvA

/-- The marking loop of `Delete` preserves the invariant. -/
theorem markLevels_inv : ∀ (i : Nat) (st : SL) (node fuel : Nat) (dm : Bool)
    (st1 : SL) (dm1 : Bool), markLevels st node i fuel dm = some (st1, dm1) →
    Inv st → Inv st1 := by
  intro i
  induction i with
  | zero =>
    intro st node fuel dm st1 dm1 h hInv
    unfold markLevels at h
    rcases hm : markInner fuel st node 0 dm with _ | ⟨stA, dmA⟩ <;> rw [hm] at h
    · cases h
    · have h2 : some (stA, dmA) = some (st1, dm1) := h
      injection h2 with h2
      injection h2 with h3 _
      subst h3
      exact markInner_inv fuel st node 0 dm stA dmA hm hInv
  | succ i' ih =>
    intro st node fuel dm st1 dm1 h hInv
    unfold markLevels at h
    rcases hm : markInner fuel st node (i' + 1) dm with _ | ⟨stA, dmA⟩ <;>
      rw [hm] at h
    · cases h
    · have h2 : markLevels stA node i' fuel dmA = some (st1, dm1) := h
      exact ih stA node fuel dmA st1 dm1 h2
        (markInner_inv fuel st node (i' + 1) dm stA dmA hm hInv)

/-- `Delete` preserves the heap invariant. -/
theorem deleteOp_spec (fuel : Nat) (st : SL) (v : Int) (st' : SL)
    (h : deleteOp fuel st v = some st') (hInv : Inv st) : Inv st' := by
  unfold deleteOp at h
  rcases hfp : findPath fuel st (.val v) with _ | ⟨st1, preds, succs, found⟩ <;>
    rw [hfp] at h
  · cases h
  · obtain ⟨hEvo, _, _, _⟩ := findPath_spec fuel st (.val v) _ hfp hInv
    have hInv1 : Inv st1 := hEvo.2.2.2.2.2.1 hInv
    have h2 : (if found = true then
        (match succs.getD 0 none with
         | none => none
         | some delNode =>
           match markLevels st1 delNode (getNode st1 delNode).level fuel
               false with
           | none => none
           | some (st2, dm) =>
             if dm then (findPath fuel st2 (.val v)).map (·.1) else some st2)
      else some st1) = some st' := h
    cases found with
    | false =>
      have h3 : some st1 = some st' := h2
      injection h3 with h3
      subst h3
      exact hInv1
    | true =>
      rw [if_pos rfl] at h2
      rcases hdn : succs.getD 0 none with _ | delNode <;> rw [hdn] at h2
      · cases h2
      · have h2b : (match markLevels st1 delNode (getNode st1 delNode).level
              fuel false with
          | none => none
          | some (st2, dm) =>
            if dm then (findPath fuel st2 (.val v)).map (·.1)
            else some st2) = some st' := h2
        rcases hml : markLevels st1 delNode (getNode st1 delNode).level fuel
          false with _ | ⟨st2, dm⟩ <;> rw [hml] at h2b
        · cases h2b
        · have hInv2 : Inv st2 := markLevels_inv (getNode st1 delNode).level
            st1 delNode fuel false st2 dm hml hInv1
          have h3 : (if dm = true then (findPath fuel st2 (.val v)).map (·.1)
              else some st2) = some st' := h2b
          cases dm with
          | false =>
            have h4 : some st2 = some st' := h3
            injection h4 with h4
            subst h4
            exact hInv2
          | true =>
            rw [if_pos rfl] at h3
            rcases hfp2 : findPath fuel st2 (.val v) with
              _ | ⟨st3, p3, s3, b3⟩ <;> rw [hfp2] at h3
            · cases h3
            · have h5 : some st3 = some st' := h3
              injection h5 with h5
              subst h5
              obtain ⟨hEvo2, _, _, _⟩ :=
                findPath_spec fuel st2 (.val v) _ hfp2 hInv2
              exact hEvo2.2.2.2.2.2.1 hInv2

/-- A run of single-threaded operations preserves the invariant. -/
theorem runOps_inv : ∀ (ops : List Op) (fuel : Nat) (st st1 : SL),
    runOps fuel st ops = some st1 → Inv st → Inv st1 := by
  intro ops
  induction ops with
  | nil =>
    intro fuel st st1 h hInv
    have h2 : some st = some st1 := h
    injection h2 with h2
    subst h2
    exact hInv
  | cons op rest ih =>
    intro fuel st st1 h hInv
    rcases op with ⟨v, k⟩ | ⟨v⟩
    · have h2 : (match insert2 fuel st v k with
          | none => none
          | some stA => runOps fuel stA rest) = some st1 := h
      rcases hi : insert2 fuel st v k with _ | stA <;> rw [hi] at h2
      · cases h2
      · exact ih fuel stA st1 h2 (insert2_spec fuel st v k stA hi hInv)
    · have h2 : (match deleteOp fuel st v with
          | none => none
          | some stA => runOps fuel stA rest) = some st1 := h
      rcases hi : deleteOp fuel st v with _ | stA <;> rw [hi] at h2
      · cases h2
      · exact ih fuel stA st1 h2 (deleteOp_spec fuel st v stA hi hInv)

/-- The fresh skiplist satisfies the invariant, with chain `[0, 1]`. -/
theorem inv_newSL : Inv newSL := by
  refine ⟨by decide, by decide, rfl, ?_, ?_, ⟨[0, 1], rfl, rfl, by decide,
    ?_, ?_, ?_⟩⟩
  · intro i
    show (List.replicate (MaxLevel + 1) (none : Option (Nat × Bool))).getD i
      none = none
    exact getD_replicate_none2 _ i
  · intro m i q d hq
    show q < newSL.nodes.length
    rcases m with _ | m
    · have hq2 : (List.replicate (MaxLevel + 1)
          (some ((1 : Nat), false))).getD i none = some (q, d) := hq
      rw [List.getD_eq_getElem?_getD, List.getElem?_replicate] at hq2
      split_ifs at hq2 with hi
      · simp only [Option.getD_some] at hq2
        injection hq2 with hq2
        injection hq2 with h1 _
        rw [← h1]
        decide
      · cases hq2
    · rcases m with _ | m
      · have hq2 : (List.replicate (MaxLevel + 1)
            (none : Option (Nat × Bool))).getD i none = some (q, d) := hq
        rw [getD_replicate_none2] at hq2
        cases hq2
      · have hnd : getNode newSL (m + 2) = newNode .minI 0 := by
          unfold getNode
          rw [List.getD_eq_getElem?_getD,
            List.getElem?_eq_none (by show newSL.nodes.length ≤ m + 2; show 2 ≤ m + 2; omega)]
          rfl
        have hq2 : getSlot newSL (m + 2) i = some (q, d) := hq
        unfold getSlot at hq2
        rw [hnd] at hq2
        rw [show (newNode Itm.minI 0).next = List.replicate 1 none from rfl,
          getD_replicate_none2] at hq2
        cases hq2
  · intro n hn
    have h2 : newSL.nodes.length = 2 := rfl
    rw [h2]
    simp only [List.mem_cons, List.not_mem_nil, or_false] at hn
    rcases hn with rfl | rfl
    · omega
    · omega
  · refine List.chain'_cons.mpr ⟨?_, List.chain'_singleton _⟩
    rfl
  · show ([Itm.minI, Itm.maxI] : List Itm).Pairwise Itm.le
    refine List.pairwise_cons.mpr ⟨?_, List.pairwise_singleton _ _⟩
    intro b hb
    rw [List.mem_singleton] at hb
    subst hb
    exact trivial

/-- A sorted chain yields non-decreasing live values. -/
theorem liveVals_sorted (st : SL) (l : List Nat)
    (h : (l.map (fun n => (getNode st n).itm)).Pairwise Itm.le) :
    (liveVals st l).Pairwise (· ≤ ·) := by
  unfold liveVals
  rw [List.pairwise_filterMap]
  have h2 : l.Pairwise
      (fun a b => Itm.le (getNode st a).itm (getNode st b).itm) :=
    List.pairwise_map.mp h
  refine h2.imp ?_
  intro a b hle v hv w hw
  rw [Option.mem_def] at hv hw
  by_cases hda : (getNext st a 0).2 = true
  · rw [if_pos hda] at hv
    cases hv
  · rw [if_neg hda] at hv
    by_cases hdb : (getNext st b 0).2 = true
    · rw [if_pos hdb] at hw
      cases hw
    · rw [if_neg hdb] at hw
      rcases hia : (getNode st a).itm with _ | va <;> rw [hia] at hv
      · cases hv
      · rcases hib : (getNode st b).itm with _ | vb <;> rw [hib] at hw
        · cases hw
        · injection hv with hv
          injection hw with hw
          subst hv
          subst hw
          rw [hia, hib] at hle
          exact hle
        · cases hw
      · cases hv

/-- C5: after any finite sequence of single-threaded `Insert2` and
`Delete` operations on a freshly constructed skiplist, the level-0 chain
from the head to the tail sentinel exists, and the items encountered
along it — excluding nodes whose level-0 outgoing edge is marked
deleted — are in non-decreasing order under the caller's comparator. -/
theorem C5_level0_sorted (ops : List Op) (fuel : Nat) (st1 : SL)
    (h : runOps fuel newSL ops = some st1) :
    ∃ l, chainOf st1 = some l ∧ (liveVals st1 l).Pairwise (· ≤ ·) := by
  have hInv : Inv st1 := runOps_inv ops fuel newSL st1 h inv_newSL
  obtain ⟨l, hl⟩ := hInv.chain
  exact ⟨l, chainOk_compute st1 l hl, liveVals_sorted st1 l hl.sorted⟩

/-- Witness for C5: inserting 5 and 2 and deleting 5 succeeds, and the
resulting chain's live items are sorted. -/
theorem C5_level0_sorted_witness :
    runOps 20 newSL [.ins 5 0, .ins 2 1, .del 5] = some slE1 ∧
    ∃ l, chainOf slE1 = some l ∧ (liveVals slE1 l).Pairwise (· ≤ ·) :=
  ⟨by rfl, C5_level0_sorted [.ins 5 0, .ins 2 1, .del 5] 20 slE1 (by rfl)⟩

end Nitro
